import Mathlib

/-!
Shallow embedding of the QAIPipeline class (the run/suite/test
aggregation pipeline): scenario normalization and capping from
analyzePR, persona grouping / suite capping / per-suite deduplication
and store writes from uploadScenariosToDatabase, dispatch logic from
runTests, and the result rollup from verifyFinalResults and
updateTestResults.  The external relational store is modelled as an
explicit state (lists of result, suite and test records plus an id
counter) and store failures are modelled by an oracle saying which
inserts are rejected.  All definitions are executable.
-/

namespace QAI

/-- Value of the summary field as delivered by the generator: a JS value
that is either absent (undefined or null), a string, or some non-string
value.  Non-string truthy and falsy values behave identically in the
pipeline (both fail the summary check), so one constructor suffices. -/
inductive JsStr where
  | absent
  | nonString
  | str (s : String)
deriving DecidableEq, Repr

/-- Raw scenario draft as parsed from the generator response, before the
summary normalization step in analyzePR.  The scType field embeds the
JS property named type; steps and priority are carried verbatim by the
code and never inspected by the logic under verification, so they are
not modelled. -/
structure RawScenario where
  description : String
  scType : Option String
  persona : Option String
  summary : JsStr
deriving DecidableEq, Repr

/-- Scenario after the normalization map in analyzePR: the summary is always a
string from that point on (it is what gets persisted). -/
structure Scenario where
  description : String
  scType : Option String
  persona : Option String
  summary : String
deriving DecidableEq, Repr

/-- JS fallback on the type field used inside the synthesized summary:
an absent or empty (falsy) type is replaced by the one-letter literal a. -/
def typeOrA (t : Option String) : String :=
  match t with
  | some s => if s = "" then "a" else s
  | none => "a"

/-- Template summary synthesized in analyzePR when the generated summary
is absent, not a string, or blank. -/
def synthesizedSummary (deploymentUrl : String) (s : RawScenario) : String :=
  "On " ++ deploymentUrl ++ ", you are testing " ++ typeOrA s.scType ++
    " scenario: " ++ s.description ++
    ". In this test, follow the steps to validate the expected behavior and surface any validation or UX issues."

/-- Summary selection from analyzePR: keep s.summary when it is a truthy
string whose trim is truthy, otherwise synthesize from the template. -/
def effectiveSummary (deploymentUrl : String) (s : RawScenario) : String :=
  match s.summary with
  | JsStr.str t =>
      if t ≠ "" ∧ t.trim ≠ "" then t else synthesizedSummary deploymentUrl s
  | _ => synthesizedSummary deploymentUrl s

/-- One element of the map over parsedScenarios in analyzePR: the spread
keeps every field and replaces summary by the effective summary. -/
def normalizeScenario (deploymentUrl : String) (s : RawScenario) : Scenario :=
  { description := s.description
    scType := s.scType
    persona := s.persona
    summary := effectiveSummary deploymentUrl s }

/-- Pure core of analyzePR after the generator response is parsed: hard
cap the scenario list to 4 entries, then normalize each summary.  This
is the list that is saved to test-scenarios.json and handed to
uploadScenariosToDatabase. -/
def analyzePRScenarios (deploymentUrl : String) (parsed : List RawScenario) :
    List Scenario :=
  let capped := if parsed.length > 4 then parsed.take 4 else parsed
  capped.map (normalizeScenario deploymentUrl)

/-- JS fallback on the persona field used as the grouping key in
uploadScenariosToDatabase: an absent or empty persona becomes the
sentinel default. -/
def personaOf (s : Scenario) : String :=
  match s.persona with
  | some p => if p = "" then "default" else p
  | none => "default"

/-- Update-or-insert into an insertion-ordered association list, the
behaviour of writing a property on a JS object (or setting a Map key):
an existing key keeps its position and has its value updated, a new key
is appended at the end. -/
def upsertAssoc {β : Type} (key : String) (upd : β → β) (ini : β)
    (acc : List (String × β)) : List (String × β) :=
  if acc.any (fun t => t.1 = key) then
    acc.map (fun t => if t.1 = key then (t.1, upd t.2) else t)
  else acc ++ [(key, ini)]

/-- One step of the reduce that builds personaGroups: push the scenario
onto the group of its persona, creating the group on first sight. -/
def insertGroup (groups : List (String × List Scenario)) (s : Scenario) :
    List (String × List Scenario) :=
  upsertAssoc (personaOf s) (fun g => g ++ [s]) [s] groups

/-- The personaGroups object of uploadScenariosToDatabase, as an
association list in key-insertion order (the order Object.keys
enumerates string keys). -/
def groupByPersona (scenarios : List Scenario) : List (String × List Scenario) :=
  scenarios.foldl insertGroup []

/-- One step of building the Map used for deduplication: a repeated
description overwrites the stored scenario in place, a new description
is appended. -/
def insertDedup (acc : List (String × Scenario)) (s : Scenario) :
    List (String × Scenario) :=
  upsertAssoc s.description (fun _ => s) s acc

/-- The uniqueScenarios computation of uploadScenariosToDatabase:
values of a Map keyed by description, so one scenario per distinct
description, last occurrence winning, keys in first-occurrence order. -/
def dedupByDescription (ss : List Scenario) : List Scenario :=
  (ss.foldl insertDedup []).map Prod.snd

/-- Row of the results table (one Run).  overall_result is the JSON
counts object, none standing for the initial empty object: the triple
is (passed, failed, total). -/
structure ResultRecord where
  id : Nat
  pr_link : String
  pr_name : String
  run_status : String
  overall_result : Option (Nat × Nat × Nat)
deriving DecidableEq, Repr

/-- Row of the suites table (one Suite). -/
structure SuiteRecord where
  id : Nat
  result_id : Nat
  name : String
deriving DecidableEq, Repr

/-- Row of the tests table (one Test).  The name column carries a
global uniqueness constraint used by the upsert; test_success is the
nullable boolean outcome. -/
structure TestRecord where
  suite_id : Nat
  name : String
  summary : String
  test_success : Option Bool
  run_status : String
  steps : List String
deriving DecidableEq, Repr

/-- The external relational store: three tables plus a counter supplying
fresh row ids for results and suites. -/
structure Store where
  results : List ResultRecord
  suites : List SuiteRecord
  tests : List TestRecord
  nextId : Nat
deriving DecidableEq, Repr

/-- Upsert of a single test row with conflict target name: an existing
row with the same name is overwritten in place, otherwise the row is
appended. -/
def upsertTest (tests : List TestRecord) (r : TestRecord) : List TestRecord :=
  if tests.any (fun t => t.name = r.name) then
    tests.map (fun t => if t.name = r.name then r else t)
  else tests ++ [r]

/-- Batch upsert of a list of test rows, in order. -/
def upsertTestList (tests : List TestRecord) (rs : List TestRecord) :
    List TestRecord :=
  rs.foldl upsertTest tests

/-- Failure oracle for the store: which inserts the store rejects.
Suite and tests failures are keyed by the persona being processed. -/
structure StoreOracle where
  resultInsertFails : Bool
  suiteInsertFails : String → Bool
  testsUpsertFails : String → Bool

/-- Test row built for a scenario in uploadScenariosToDatabase. -/
def mkTestRecord (suiteId : Nat) (s : Scenario) : TestRecord :=
  { suite_id := suiteId
    name := s.description
    summary := s.summary
    test_success := none
    run_status := "RUNNING"
    steps := [] }

/-- Accumulated state of the per-persona loop in
uploadScenariosToDatabase: the store, the suiteIds object, and the
trace of attempted tests-upsert calls (persona paired with the record
batch handed to the store). -/
structure UploadState where
  store : Store
  suiteIds : List (String × Nat)
  upsertCalls : List (String × List TestRecord)
deriving Repr

/-- Body of the per-persona loop: skip the persona entirely when the
suite insert is rejected; otherwise insert the suite row, record its
id, deduplicate the group by description and upsert the test rows
(an upsert rejection is only logged, leaving the table unchanged). -/
def processPersona (o : StoreOracle) (resultId : Nat) (acc : UploadState)
    (g : String × List Scenario) : UploadState :=
  if o.suiteInsertFails g.1 then acc
  else
    let sid := acc.store.nextId
    let withSuite : Store :=
      { acc.store with
        suites := acc.store.suites ++
          [{ id := sid, result_id := resultId, name := g.1 ++ " Agent Suite" }]
        nextId := acc.store.nextId + 1 }
    let recs := (dedupByDescription g.2).map (mkTestRecord sid)
    let withTests : Store :=
      if o.testsUpsertFails g.1 then withSuite
      else { withSuite with tests := upsertTestList withSuite.tests recs }
    { store := withTests
      suiteIds := acc.suiteIds ++ [(g.1, sid)]
      upsertCalls := acc.upsertCalls ++ [(g.1, recs)] }

/-- Return value of uploadScenariosToDatabase: the new store, the
resultId the pipeline keeps (none when the results insert failed), the
suiteIds object, and the trace of tests-upsert calls. -/
structure UploadResult where
  store : Store
  resultId : Option Nat
  suiteIds : List (String × Nat)
  upsertCalls : List (String × List TestRecord)
deriving Repr

/-- The uploadScenariosToDatabase method: insert the results row (PR
level); on rejection log and return with no further writes.  Otherwise
group the scenarios by persona, keep the first 4 keys, and run the
per-persona loop. -/
def uploadScenariosToDatabase (o : StoreOracle) (st : Store)
    (prLink prName : String) (scenarios : List Scenario) : UploadResult :=
  if o.resultInsertFails then
    { store := st, resultId := none, suiteIds := [], upsertCalls := [] }
  else
    let rid := st.nextId
    let withRun : Store :=
      { st with
        results := st.results ++
          [{ id := rid, pr_link := prLink, pr_name := prName,
             run_status := "RUNNING", overall_result := none }]
        nextId := st.nextId + 1 }
    let groups := (groupByPersona scenarios).take 4
    let final := groups.foldl (processPersona o rid)
      { store := withRun, suiteIds := [], upsertCalls := [] }
    { store := final.store
      resultId := some rid
      suiteIds := final.suiteIds
      upsertCalls := final.upsertCalls }

/-- Outcome of the axios call to the run-result endpoint: either a
response envelope whose data carries an optional status string (absent
data reads as an absent status), or a thrown network error, which also
covers a timeout. -/
inductive DispatchOutcome where
  | response (status : Option String)
  | netError
deriving DecidableEq, Repr

/-- Best-effort update of the results row to run_status FAILED executed
in the catch branch of runTests. -/
def setRunStatusFailed (st : Store) (rid : Nat) : Store :=
  { st with
    results := st.results.map (fun r =>
      if r.id = rid then { r with run_status := "FAILED" } else r) }

/-- Per-run totals read back by verifyFinalResults: number of tests
under all suites of the run. -/
def runTotal (st : Store) (rid : Nat) : Nat :=
  ((st.suites.filter (fun s => s.result_id = rid)).map
    (fun s => (st.tests.filter (fun t => t.suite_id = s.id)).length)).sum

/-- Per-run passed count read back by verifyFinalResults: number of
tests under all suites of the run whose test_success is exactly true. -/
def runPassed (st : Store) (rid : Nat) : Nat :=
  ((st.suites.filter (fun s => s.result_id = rid)).map
    (fun s => (st.tests.filter
      (fun t => t.suite_id = s.id ∧ t.test_success = some true)).length)).sum

/-- The verifyFinalResults method: read the run row with nested suites
and tests, then report success when the stored run_status is PASSED or
every test passed and there is at least one test.  A missing run row
reads as failure. -/
def verifyFinalResults (st : Store) (rid : Nat) : Bool :=
  match st.results.find? (fun r => r.id = rid) with
  | none => false
  | some result =>
      result.run_status = "PASSED" ||
        (runPassed st rid = runTotal st rid && runTotal st rid > 0)

/-- Result of the runTests method: the store after the call, whether the
agent endpoint was actually invoked, whether verifyFinalResults was
invoked, and the boolean the method returns. -/
structure RunTestsResult where
  store : Store
  dispatched : Bool
  verified : Bool
  success : Bool
deriving DecidableEq, Repr

/-- The runTests method.  A missing QAI_ENDPOINT or missing resultId
throws before the agent call; the catch branch then sets the run row to
FAILED when a resultId is known and returns false.  With both present
the endpoint is called once: a thrown network error or timeout, or a
response whose data status differs from the token success, takes the
same catch branch; only an explicit success status reaches
verifyFinalResults. -/
def runTests (endpointConfigured : Bool) (resultId : Option Nat)
    (dispatch : DispatchOutcome) (st : Store) : RunTestsResult :=
  if endpointConfigured = false then
    { store := match resultId with
        | some rid => setRunStatusFailed st rid
        | none => st
      dispatched := false, verified := false, success := false }
  else
    match resultId with
    | none => { store := st, dispatched := false, verified := false, success := false }
    | some rid =>
        match dispatch with
        | DispatchOutcome.netError =>
            { store := setRunStatusFailed st rid
              dispatched := true, verified := false, success := false }
        | DispatchOutcome.response status =>
            if status = some "success" then
              { store := st, dispatched := true, verified := true
                success := verifyFinalResults st rid }
            else
              { store := setRunStatusFailed st rid
                dispatched := true, verified := false, success := false }

/-- Per-test update loop of updateTestResults: set the outcome and the
derived run_status on every row whose name matches the scenario
description. -/
def applyTestResult (st : Store) (name : String) (success : Bool) : Store :=
  { st with
    tests := st.tests.map (fun t =>
      if t.name = name then
        { t with
          test_success := some success
          run_status := if success then "PASSED" else "FAILED" }
      else t) }

/-- The updateTestResults method: write every per-test result, then
recompute the overall counts over all tests under the suites of the run and,
when at least one test exists, write the run verdict (PASSED exactly
when every test passed) together with the counts object. -/
def updateTestResults (st : Store) (rid : Nat)
    (results : List (String × Bool)) : Store :=
  let st1 := results.foldl (fun s r => applyTestResult s r.1 r.2) st
  let suites := st1.suites.filter (fun s => s.result_id = rid)
  let allTests := st1.tests.filter (fun t => suites.any (fun s => s.id = t.suite_id))
  let totalTests := allTests.length
  let passedTests := (allTests.filter (fun t => t.test_success = some true)).length
  let allTestsPassed := totalTests > 0 && passedTests = totalTests
  if totalTests > 0 then
    { st1 with
      results := st1.results.map (fun r =>
        if r.id = rid then
          { r with
            run_status := if allTestsPassed then "PASSED" else "FAILED"
            overall_result := some (passedTests, totalTests - passedTests, totalTests) }
        else r) }
  else st1

/-- Well-formedness of the suite table relative to the id counter: ids
are below the counter and pairwise distinct. -/
def SuitesWf (st : Store) : Prop :=
  (∀ su ∈ st.suites, su.id < st.nextId) ∧ (st.suites.map (fun s => s.id)).Nodup

/-- Every recorded tests-upsert call targets the suite row created for
its persona: the records of the batch carry exactly the id of that suite. -/
def CallsLinked (rid : Nat) (u : UploadState) : Prop :=
  ∀ pb ∈ u.upsertCalls, ∃ su ∈ u.store.suites,
    su.result_id = rid ∧ su.name = pb.1 ++ " Agent Suite" ∧
    ∀ r ∈ pb.2, r.suite_id = su.id

/-- The claim-side rollup condition: every test under a suite of the run
has outcome exactly true. -/
def runAllPassed (st : Store) (rid : Nat) : Prop :=
  ∀ s ∈ st.suites, s.result_id = rid → ∀ t ∈ st.tests, t.suite_id = s.id →
    t.test_success = some true

/-- State of uploadScenariosToDatabase right after the results row was
inserted, before the per-persona loop. -/
def uploadInit (st : Store) (pl pn : String) : UploadState :=
  { store :=
      { results := st.results ++
          [{ id := st.nextId, pr_link := pl, pr_name := pn,
             run_status := "RUNNING", overall_result := none }]
        suites := st.suites
        tests := st.tests
        nextId := st.nextId + 1 }
    suiteIds := []
    upsertCalls := [] }

/-- State of uploadScenariosToDatabase after the per-persona loop, on
the path where the results insert succeeded. -/
def uploadFold (o : StoreOracle) (st : Store) (pl pn : String)
    (ss : List Scenario) : UploadState :=
  ((groupByPersona ss).take 4).foldl (processPersona o st.nextId) (uploadInit st pl pn)

/-- Oracle for an error-free store. -/
def okOracle : StoreOracle :=
  { resultInsertFails := false
    suiteInsertFails := fun _ => false
    testsUpsertFails := fun _ => false }

/-- Oracle rejecting the results insert. -/
def failRunOracle : StoreOracle :=
  { resultInsertFails := true
    suiteInsertFails := fun _ => false
    testsUpsertFails := fun _ => false }

/-- Oracle rejecting only the suite insert of persona B. -/
def failSuiteBOracle : StoreOracle :=
  { resultInsertFails := false
    suiteInsertFails := fun p => decide (p = "B")
    testsUpsertFails := fun _ => false }

/-- Empty initial store. -/
def emptyStore : Store := { results := [], suites := [], tests := [], nextId := 0 }

/-- Sample scenarios used by the concrete witnesses. -/
def scA1 : Scenario :=
  { description := "desc1", scType := some "ui", persona := some "A", summary := "s1" }

def scA1b : Scenario :=
  { description := "desc1", scType := some "ui", persona := some "A", summary := "s1b" }

def scA2 : Scenario :=
  { description := "desc2", scType := some "ui", persona := some "A", summary := "s2" }

def scB3 : Scenario :=
  { description := "desc3", scType := some "ui", persona := some "B", summary := "s3" }

def scC3 : Scenario :=
  { description := "desc3", scType := some "ui", persona := some "C", summary := "s3c" }

def scD4 : Scenario :=
  { description := "desc4", scType := some "ui", persona := some "D", summary := "s4" }

def scE5 : Scenario :=
  { description := "desc5", scType := some "ui", persona := some "E", summary := "s5" }

/-- Five-persona scenario list (more than the cap of 4). -/
def fivePersonaScenarios : List Scenario := [scA1, scB3, scC3, scD4, scE5]

/-- Scenario list of the builder example in the spec. -/
def mixedScenarios : List Scenario := [scA1, scA1b, scA2, scB3, scC3]

/-- Store snapshot whose run row says PASSED while a test outcome is
still null. -/
def c1cexStore : Store :=
  { results := [⟨0, "L", "N", "PASSED", none⟩]
    suites := [⟨1, 0, "A Agent Suite"⟩]
    tests := [⟨1, "d", "s", none, "RUNNING", []⟩]
    nextId := 2 }

/-- Store snapshot with one passed test and run row still RUNNING. -/
def c1okStore : Store :=
  { results := [⟨0, "L", "N", "RUNNING", none⟩]
    suites := [⟨1, 0, "A Agent Suite"⟩]
    tests := [⟨1, "d", "s", some true, "PASSED", []⟩]
    nextId := 2 }

/-- Raw scenario with an absent summary. -/
def rawNoSummary : RawScenario :=
  { description := "d", scType := none, persona := some "A", summary := JsStr.absent }

/-- First occurrence of each distinct element of a list of strings, in
order of first appearance: the reference characterization of the key
order of the two insertion-ordered maps above. -/
def firstDistinct : List String → List String
  | [] => []
  | p :: ps => p :: firstDistinct (ps.filter (fun q => q ≠ p))
termination_by l => l.length
decreasing_by
  simp only [List.length_cons]
  exact Nat.lt_succ_of_le (List.length_filter_le _ _)

theorem firstDistinct_mem (a : String) :
    ∀ l : List String, a ∈ firstDistinct l ↔ a ∈ l := by
  intro l
  induction l using firstDistinct.induct with
  | case1 => simp [firstDistinct]
  | case2 p ps ih =>
      rw [firstDistinct]
      by_cases hap : a = p
      · subst hap; simp
      · simp only [List.mem_cons, ih, List.mem_filter, decide_eq_true_eq]
        constructor
        · rintro (h | ⟨h, _⟩)
          · exact Or.inl h
          · exact Or.inr h
        · rintro (h | h)
          · exact Or.inl h
          · exact Or.inr ⟨h, hap⟩

theorem firstDistinct_nodup : ∀ l : List String, (firstDistinct l).Nodup := by
  intro l
  induction l using firstDistinct.induct with
  | case1 => simp [firstDistinct]
  | case2 p ps ih =>
      rw [firstDistinct]
      refine List.nodup_cons.mpr ⟨?_, ih⟩
      intro hmem
      have := (firstDistinct_mem p _).mp hmem
      simp [List.mem_filter] at this

theorem any_fst_eq_iff {β : Type} (acc : List (String × β)) (k : String) :
    (acc.any fun t => t.1 = k) = true ↔ k ∈ acc.map Prod.fst := by
  simp only [List.any_eq_true, List.mem_map, decide_eq_true_eq]

theorem upsertAssoc_keys {β : Type} (k : String) (upd : β → β) (ini : β)
    (acc : List (String × β)) :
    (upsertAssoc k upd ini acc).map Prod.fst =
      if k ∈ acc.map Prod.fst then acc.map Prod.fst
      else acc.map Prod.fst ++ [k] := by
  unfold upsertAssoc
  by_cases h : k ∈ acc.map Prod.fst
  · rw [if_pos ((any_fst_eq_iff acc k).mpr h), if_pos h, List.map_map]
    apply List.map_congr_left
    intro t _
    by_cases ht : t.1 = k <;> simp [ht]
  · have hq : ¬ ((acc.any fun t => t.1 = k) = true) := fun hc =>
      h ((any_fst_eq_iff acc k).mp hc)
    rw [if_neg hq, if_neg h, List.map_append]
    rfl

theorem foldl_upsert_keys {α β : Type} (key : α → String) (upd : α → β → β)
    (ini : α → β) :
    ∀ (l : List α) (acc : List (String × β)),
    ((l.foldl (fun a s => upsertAssoc (key s) (upd s) (ini s) a) acc).map Prod.fst)
      = acc.map Prod.fst ++
          firstDistinct ((l.map key).filter (fun p => p ∉ acc.map Prod.fst)) := by
  intro l
  induction l with
  | nil => intro acc; simp [firstDistinct]
  | cons s rest ih =>
      intro acc
      rw [List.foldl_cons]
      by_cases h : key s ∈ acc.map Prod.fst
      · have hk : (upsertAssoc (key s) (upd s) (ini s) acc).map Prod.fst
            = acc.map Prod.fst := by
          rw [upsertAssoc_keys]; exact if_pos h
        rw [ih, hk]
        congr 2
        rw [List.map_cons, List.filter_cons]
        have hks : (decide (key s ∉ acc.map Prod.fst)) = false := by
          simp [h]
        rw [hks]
        simp
      · have hk : (upsertAssoc (key s) (upd s) (ini s) acc).map Prod.fst
            = acc.map Prod.fst ++ [key s] := by
          rw [upsertAssoc_keys]; exact if_neg h
        have hfilt : ((rest.map key).filter (fun p => p ∉ acc.map Prod.fst ++ [key s]))
            = ((rest.map key).filter (fun p => p ∉ acc.map Prod.fst)).filter
                (fun q => q ≠ key s) := by
          rw [List.filter_filter]
          apply List.filter_congr
          intro a _
          have hiff : (a ∉ acc.map Prod.fst ++ [key s])
              ↔ (a ≠ key s ∧ a ∉ acc.map Prod.fst) := by
            simp only [List.mem_append, List.mem_singleton]
            tauto
          rw [decide_eq_decide.mpr hiff, Bool.decide_and]
        rw [ih, hk, hfilt]
        rw [List.map_cons, List.filter_cons]
        have hks : (decide (key s ∉ acc.map Prod.fst)) = true := by
          simp [h]
        rw [hks]
        simp only [if_true]
        rw [firstDistinct]
        rw [List.append_assoc, List.singleton_append]

theorem insertGroup_keys (acc : List (String × List Scenario)) (s : Scenario) :
    (insertGroup acc s).map Prod.fst =
      if personaOf s ∈ acc.map Prod.fst then acc.map Prod.fst
      else acc.map Prod.fst ++ [personaOf s] :=
  upsertAssoc_keys (personaOf s) _ _ acc

theorem groupByPersona_keys (ss : List Scenario) :
    (groupByPersona ss).map Prod.fst = firstDistinct (ss.map personaOf) := by
  have heq : groupByPersona ss
      = ss.foldl (fun a s => upsertAssoc (personaOf s) (fun g => g ++ [s]) [s] a) [] := rfl
  rw [heq, foldl_upsert_keys]
  simp

theorem dedup_assoc_keys (ss : List Scenario) :
    (ss.foldl insertDedup []).map Prod.fst
      = firstDistinct (ss.map (fun s => s.description)) := by
  have heq : ss.foldl insertDedup []
      = ss.foldl (fun a s => upsertAssoc s.description (fun _ => s) s a) [] := rfl
  rw [heq, foldl_upsert_keys]
  simp

theorem foldl_insertGroup_entries :
    ∀ (l : List Scenario) (acc : List (String × List Scenario)) (done : List Scenario),
    (∀ pg ∈ acc, pg.2 = done.filter (fun s => personaOf s = pg.1)) →
    (∀ s ∈ done, personaOf s ∈ acc.map Prod.fst) →
    ∀ pg ∈ l.foldl insertGroup acc,
      pg.2 = (done ++ l).filter (fun s => personaOf s = pg.1) := by
  intro l
  induction l with
  | nil =>
      intro acc done h1 _ pg hm
      rw [List.append_nil]
      exact h1 pg (by simpa using hm)
  | cons s rest ih =>
      intro acc done h1 h2 pg hm
      rw [List.foldl_cons] at hm
      have hstep : (done ++ s :: rest) = (done ++ [s]) ++ rest := by simp
      rw [hstep]
      refine ih (insertGroup acc s) (done ++ [s]) ?_ ?_ pg hm
      · intro qg hq
        unfold insertGroup upsertAssoc at hq
        by_cases h : personaOf s ∈ acc.map Prod.fst
        · rw [if_pos ((any_fst_eq_iff acc (personaOf s)).mpr h)] at hq
          obtain ⟨t, ht, hti⟩ := List.mem_map.mp hq
          by_cases htp : t.1 = personaOf s
          · rw [if_pos htp] at hti
            subst hti
            rw [List.filter_append, ← h1 t ht]
            simp [htp]
          · rw [if_neg htp] at hti
            subst hti
            rw [List.filter_append, ← h1 t ht]
            have : personaOf s ≠ t.1 := fun hc => htp hc.symm
            simp [this]
        · have hq' : ¬ ((acc.any fun t => t.1 = personaOf s) = true) := fun hc =>
            h ((any_fst_eq_iff acc (personaOf s)).mp hc)
          rw [if_neg hq'] at hq
          rcases List.mem_append.mp hq with hin | hin
          · have hne : personaOf s ≠ qg.1 := by
              intro hc
              exact h (hc ▸ List.mem_map.mpr ⟨qg, hin, rfl⟩)
            rw [List.filter_append, ← h1 qg hin]
            simp [hne]
          · rw [List.mem_singleton] at hin
            subst hin
            rw [List.filter_append]
            have hnil : done.filter (fun x => personaOf x = personaOf s) = [] := by
              apply List.filter_eq_nil_iff.mpr
              intro x hx
              simp only [decide_eq_true_eq]
              intro hc
              exact h (hc ▸ h2 x hx)
            simp [hnil]
      · intro x hx
        rw [insertGroup_keys]
        rcases List.mem_append.mp hx with hin | hin
        · by_cases h : personaOf s ∈ acc.map Prod.fst
          · rw [if_pos h]; exact h2 x hin
          · rw [if_neg h]; exact List.mem_append.mpr (Or.inl (h2 x hin))
        · rw [List.mem_singleton] at hin
          subst hin
          by_cases h : personaOf x ∈ acc.map Prod.fst
          · rw [if_pos h]; exact h
          · rw [if_neg h]; simp

theorem groupByPersona_entries (ss : List Scenario) :
    ∀ pg ∈ groupByPersona ss, pg.2 = ss.filter (fun s => personaOf s = pg.1) := by
  intro pg hm
  have h := foldl_insertGroup_entries ss [] [] (by simp) (by simp) pg hm
  simpa using h

theorem foldl_insertDedup_entries :
    ∀ (l : List Scenario) (acc : List (String × Scenario)) (done : List Scenario),
    (∀ ds ∈ acc, (done.filter (fun x => x.description = ds.1)).getLast? = some ds.2) →
    ∀ ds ∈ l.foldl insertDedup acc,
      ((done ++ l).filter (fun x => x.description = ds.1)).getLast? = some ds.2 := by
  intro l
  induction l with
  | nil =>
      intro acc done h1 ds hm
      rw [List.append_nil]
      exact h1 ds (by simpa using hm)
  | cons s rest ih =>
      intro acc done h1 ds hm
      rw [List.foldl_cons] at hm
      have hstep : (done ++ s :: rest) = (done ++ [s]) ++ rest := by simp
      rw [hstep]
      refine ih (insertDedup acc s) (done ++ [s]) ?_ ds hm
      intro qd hq
      unfold insertDedup upsertAssoc at hq
      by_cases h : (acc.any fun t => t.1 = s.description) = true
      · rw [if_pos h] at hq
        obtain ⟨t, ht, hti⟩ := List.mem_map.mp hq
        by_cases htp : t.1 = s.description
        · rw [if_pos htp] at hti
          subst hti
          rw [List.filter_append]
          have : s.description = t.1 := htp.symm
          simp [this, List.getLast?_concat]
        · rw [if_neg htp] at hti
          subst hti
          rw [List.filter_append]
          have hne : ¬ s.description = t.1 := fun hc => htp hc.symm
          simp only [List.filter_cons, List.filter_nil, decide_eq_true_eq]
          rw [if_neg hne]
          rw [List.append_nil]
          exact h1 t ht
      · rw [if_neg h] at hq
        rcases List.mem_append.mp hq with hin | hin
        · have hne : ¬ s.description = qd.1 := by
            intro hc
            apply h
            exact List.any_eq_true.mpr ⟨qd, hin, by simp [hc.symm]⟩
          rw [List.filter_append]
          simp only [List.filter_cons, List.filter_nil, decide_eq_true_eq]
          rw [if_neg hne, List.append_nil]
          exact h1 qd hin
        · rw [List.mem_singleton] at hin
          subst hin
          rw [List.filter_append]
          simp [List.getLast?_concat]

theorem foldl_insertDedup_char (ss : List Scenario) :
    ∀ ds ∈ ss.foldl insertDedup [], ds.2.description = ds.1 ∧
      (ss.filter (fun y => y.description = ds.1)).getLast? = some ds.2 := by
  intro ds hm
  have h := foldl_insertDedup_entries ss [] [] (by simp) ds hm
  rw [List.nil_append] at h
  refine ⟨?_, h⟩
  obtain ⟨ys, hys⟩ := List.getLast?_eq_some_iff.mp h
  have hmem : ds.2 ∈ ss.filter (fun y => y.description = ds.1) := by
    rw [hys]; simp
  have := List.mem_filter.mp hmem
  simpa using this.2

theorem dedupByDescription_last (ss : List Scenario) :
    ∀ x ∈ dedupByDescription ss,
      (ss.filter (fun y => y.description = x.description)).getLast? = some x := by
  intro x hx
  obtain ⟨ds, hds, hx2⟩ := List.mem_map.mp hx
  obtain ⟨hdesc, hlast⟩ := foldl_insertDedup_char ss ds hds
  subst hx2
  rw [hdesc]
  exact hlast

theorem dedupByDescription_subset (ss : List Scenario) :
    ∀ x ∈ dedupByDescription ss, x ∈ ss := by
  intro x hx
  have h := dedupByDescription_last ss x hx
  obtain ⟨ys, hys⟩ := List.getLast?_eq_some_iff.mp h
  have hmem : x ∈ ss.filter (fun y => y.description = x.description) := by
    rw [hys]; simp
  exact (List.mem_filter.mp hmem).1

theorem dedupByDescription_descs (ss : List Scenario) :
    (dedupByDescription ss).map (fun s => s.description)
      = firstDistinct (ss.map (fun s => s.description)) := by
  unfold dedupByDescription
  rw [List.map_map]
  have hpt : ∀ ds ∈ ss.foldl insertDedup [],
      ((fun s => s.description) ∘ Prod.snd) ds = Prod.fst ds := by
    intro ds hm
    exact (foldl_insertDedup_char ss ds hm).1
  rw [List.map_congr_left hpt, dedup_assoc_keys]

theorem upsertAssoc_length_le {β : Type} (k : String) (upd : β → β) (ini : β)
    (acc : List (String × β)) :
    (upsertAssoc k upd ini acc).length ≤ acc.length + 1 := by
  unfold upsertAssoc
  by_cases h : (acc.any fun t => t.1 = k) = true
  · rw [if_pos h, List.length_map]; omega
  · rw [if_neg h, List.length_append]; simp

theorem dedupByDescription_length_le (ss : List Scenario) :
    (dedupByDescription ss).length ≤ ss.length := by
  unfold dedupByDescription
  rw [List.length_map]
  have key : ∀ (l : List Scenario) (acc : List (String × Scenario)),
      (l.foldl insertDedup acc).length ≤ acc.length + l.length := by
    intro l
    induction l with
    | nil => intro acc; simp
    | cons s rest ih =>
        intro acc
        rw [List.foldl_cons]
        calc (rest.foldl insertDedup (insertDedup acc s)).length
            ≤ (insertDedup acc s).length + rest.length := ih _
          _ ≤ (acc.length + 1) + rest.length := by
              have h := upsertAssoc_length_le s.description (fun _ => s) s acc
              unfold insertDedup
              omega
          _ = acc.length + (s :: rest).length := by simp [Nat.add_comm, Nat.add_assoc, Nat.add_left_comm]
  simpa using key ss []

theorem any_name_eq_iff (ts : List TestRecord) (n : String) :
    (ts.any fun t => t.name = n) = true ↔ n ∈ ts.map (fun t => t.name) := by
  simp only [List.any_eq_true, List.mem_map, decide_eq_true_eq]

theorem upsertTest_names_mono (ts : List TestRecord) (r : TestRecord) (n : String)
    (h : n ∈ ts.map (fun t => t.name)) :
    n ∈ (upsertTest ts r).map (fun t => t.name) := by
  unfold upsertTest
  by_cases hc : (ts.any fun t => t.name = r.name) = true
  · rw [if_pos hc, List.map_map]
    obtain ⟨t, ht, hn⟩ := List.mem_map.mp h
    apply List.mem_map.mpr
    refine ⟨t, ht, ?_⟩
    by_cases htr : t.name = r.name
    · show (if t.name = r.name then r else t).name = n
      rw [if_pos htr, ← htr]
      exact hn
    · show (if t.name = r.name then r else t).name = n
      rw [if_neg htr]
      exact hn
  · rw [if_neg hc, List.map_append]
    exact List.mem_append.mpr (Or.inl h)

theorem upsertTest_self_name (ts : List TestRecord) (r : TestRecord) :
    r.name ∈ (upsertTest ts r).map (fun t => t.name) := by
  unfold upsertTest
  by_cases hc : (ts.any fun t => t.name = r.name) = true
  · rw [if_pos hc, List.map_map]
    obtain ⟨t, ht, hn⟩ := List.any_eq_true.mp hc
    rw [decide_eq_true_eq] at hn
    apply List.mem_map.mpr
    exact ⟨t, ht, by simp [hn]⟩
  · rw [if_neg hc, List.map_append]
    simp

theorem upsertTest_names_of_mem (ts : List TestRecord) (r : TestRecord)
    (h : r.name ∈ ts.map (fun t => t.name)) :
    (upsertTest ts r).map (fun t => t.name) = ts.map (fun t => t.name) := by
  unfold upsertTest
  rw [if_pos ((any_name_eq_iff ts r.name).mpr h), List.map_map]
  apply List.map_congr_left
  intro t _
  by_cases htr : t.name = r.name
  · simp [htr]
  · simp [htr]

theorem upsertTest_mem (ts : List TestRecord) (r : TestRecord) (t : TestRecord)
    (h : t ∈ upsertTest ts r) : t ∈ ts ∨ t = r := by
  unfold upsertTest at h
  by_cases hc : (ts.any fun u => u.name = r.name) = true
  · rw [if_pos hc] at h
    obtain ⟨u, hu, hui⟩ := List.mem_map.mp h
    by_cases hur : u.name = r.name
    · rw [if_pos hur] at hui
      exact Or.inr hui.symm
    · rw [if_neg hur] at hui
      exact Or.inl (hui ▸ hu)
  · rw [if_neg hc] at h
    rcases List.mem_append.mp h with h1 | h1
    · exact Or.inl h1
    · exact Or.inr (List.mem_singleton.mp h1)

theorem upsertTest_length_le (ts : List TestRecord) (r : TestRecord) :
    (upsertTest ts r).length ≤ ts.length + 1 := by
  unfold upsertTest
  by_cases hc : (ts.any fun t => t.name = r.name) = true
  · rw [if_pos hc, List.length_map]; omega
  · rw [if_neg hc, List.length_append]; simp

theorem upsertTest_names_nodup (ts : List TestRecord) (r : TestRecord)
    (h : (ts.map (fun t => t.name)).Nodup) :
    ((upsertTest ts r).map (fun t => t.name)).Nodup := by
  by_cases hc : r.name ∈ ts.map (fun t => t.name)
  · rw [upsertTest_names_of_mem ts r hc]
    exact h
  · unfold upsertTest
    rw [if_neg (fun ha => hc ((any_name_eq_iff ts r.name).mp ha)), List.map_append]
    refine List.Nodup.append h (by simp) ?_
    intro a ha hb
    rw [List.mem_map] at hb
    obtain ⟨u, hu, hun⟩ := hb
    rw [List.mem_singleton] at hu
    subst hu
    exact hc (hun ▸ ha)

theorem upsertTestList_names_mono (rs : List TestRecord) :
    ∀ (ts : List TestRecord) (n : String), n ∈ ts.map (fun t => t.name) →
      n ∈ (upsertTestList ts rs).map (fun t => t.name) := by
  induction rs with
  | nil => intro ts n h; exact h
  | cons r rest ih =>
      intro ts n h
      exact ih (upsertTest ts r) n (upsertTest_names_mono ts r n h)

theorem upsertTestList_self (rs : List TestRecord) :
    ∀ (ts : List TestRecord), ∀ r ∈ rs,
      r.name ∈ (upsertTestList ts rs).map (fun t => t.name) := by
  induction rs with
  | nil => intro ts r h; simp at h
  | cons r0 rest ih =>
      intro ts r h
      rcases List.mem_cons.mp h with h1 | h1
      · subst h1
        exact upsertTestList_names_mono rest (upsertTest ts r) r.name
          (upsertTest_self_name ts r)
      · exact ih (upsertTest ts r0) r h1

theorem upsertTestList_names_of_mem (rs : List TestRecord) :
    ∀ (ts : List TestRecord), (∀ r ∈ rs, r.name ∈ ts.map (fun t => t.name)) →
      (upsertTestList ts rs).map (fun t => t.name) = ts.map (fun t => t.name) := by
  induction rs with
  | nil => intro ts _; rfl
  | cons r rest ih =>
      intro ts h
      have h0 : r.name ∈ ts.map (fun t => t.name) := h r (by simp)
      have he : (upsertTest ts r).map (fun t => t.name) = ts.map (fun t => t.name) :=
        upsertTest_names_of_mem ts r h0
      have : (upsertTestList (upsertTest ts r) rest).map (fun t => t.name)
          = (upsertTest ts r).map (fun t => t.name) := by
        apply ih
        intro q hq
        rw [he]
        exact h q (by simp [hq])
      calc (upsertTestList ts (r :: rest)).map (fun t => t.name)
          = (upsertTestList (upsertTest ts r) rest).map (fun t => t.name) := rfl
        _ = (upsertTest ts r).map (fun t => t.name) := this
        _ = ts.map (fun t => t.name) := he

theorem upsertTestList_mem (rs : List TestRecord) :
    ∀ (ts : List TestRecord) (t : TestRecord), t ∈ upsertTestList ts rs →
      t ∈ ts ∨ t ∈ rs := by
  induction rs with
  | nil => intro ts t h; exact Or.inl h
  | cons r rest ih =>
      intro ts t h
      rcases ih (upsertTest ts r) t h with h1 | h1
      · rcases upsertTest_mem ts r t h1 with h2 | h2
        · exact Or.inl h2
        · exact Or.inr (by simp [h2])
      · exact Or.inr (by simp [h1])

theorem upsertTestList_length_le (rs : List TestRecord) :
    ∀ (ts : List TestRecord),
      (upsertTestList ts rs).length ≤ ts.length + rs.length := by
  induction rs with
  | nil => intro ts; simp [upsertTestList]
  | cons r rest ih =>
      intro ts
      have h1 := ih (upsertTest ts r)
      have h2 := upsertTest_length_le ts r
      have : (upsertTestList ts (r :: rest)).length
          = (upsertTestList (upsertTest ts r) rest).length := rfl
      rw [this, List.length_cons]
      omega

theorem upsertTestList_names_nodup (rs : List TestRecord) :
    ∀ (ts : List TestRecord), (ts.map (fun t => t.name)).Nodup →
      ((upsertTestList ts rs).map (fun t => t.name)).Nodup := by
  induction rs with
  | nil => intro ts h; exact h
  | cons r rest ih =>
      intro ts h
      exact ih (upsertTest ts r) (upsertTest_names_nodup ts r h)

theorem processPersona_fail (o : StoreOracle) (rid : Nat) (acc : UploadState)
    (g : String × List Scenario) (hf : o.suiteInsertFails g.1 = true) :
    processPersona o rid acc g = acc := by
  unfold processPersona
  rw [if_pos hf]

theorem processPersona_ok (o : StoreOracle) (rid : Nat) (acc : UploadState)
    (g : String × List Scenario) (hf : o.suiteInsertFails g.1 = false) :
    processPersona o rid acc g =
      { store :=
          { results := acc.store.results
            suites := acc.store.suites ++
              [{ id := acc.store.nextId, result_id := rid, name := g.1 ++ " Agent Suite" }]
            tests := if o.testsUpsertFails g.1 then acc.store.tests
              else upsertTestList acc.store.tests
                ((dedupByDescription g.2).map (mkTestRecord acc.store.nextId))
            nextId := acc.store.nextId + 1 }
        suiteIds := acc.suiteIds ++ [(g.1, acc.store.nextId)]
        upsertCalls := acc.upsertCalls ++
          [(g.1, (dedupByDescription g.2).map (mkTestRecord acc.store.nextId))] } := by
  unfold processPersona
  rw [if_neg (by simp [hf])]
  by_cases ht : o.testsUpsertFails g.1 = true
  · simp [ht]
  · simp [ht]

theorem foldl_pp_results (o : StoreOracle) (rid : Nat) :
    ∀ (gs : List (String × List Scenario)) (acc : UploadState),
    (gs.foldl (processPersona o rid) acc).store.results = acc.store.results := by
  intro gs
  induction gs with
  | nil => intro acc; rfl
  | cons g rest ih =>
      intro acc
      rw [List.foldl_cons]
      by_cases hf : o.suiteInsertFails g.1 = true
      · rw [processPersona_fail o rid acc g hf]
        exact ih acc
      · have hf2 : o.suiteInsertFails g.1 = false := by simpa using hf
        rw [processPersona_ok o rid acc g hf2, ih]

theorem foldl_pp_suites (o : StoreOracle) (rid : Nat) :
    ∀ (gs : List (String × List Scenario)) (acc : UploadState),
    (gs.foldl (processPersona o rid) acc).store.suites.map (fun s => (s.result_id, s.name))
      = acc.store.suites.map (fun s => (s.result_id, s.name)) ++
          (gs.filter (fun g => o.suiteInsertFails g.1 = false)).map
            (fun g => (rid, g.1 ++ " Agent Suite")) := by
  intro gs
  induction gs with
  | nil => intro acc; simp
  | cons g rest ih =>
      intro acc
      rw [List.foldl_cons, List.filter_cons]
      by_cases hf : o.suiteInsertFails g.1 = true
      · rw [processPersona_fail o rid acc g hf]
        have hd : (decide (o.suiteInsertFails g.1 = false)) = false := by simp [hf]
        rw [hd]
        simp only [Bool.false_eq_true, if_false]
        exact ih acc
      · have hf2 : o.suiteInsertFails g.1 = false := by simpa using hf
        rw [processPersona_ok o rid acc g hf2, ih]
        have hd : (decide (o.suiteInsertFails g.1 = false)) = true := by simp [hf2]
        rw [hd]
        simp only [if_true, List.map_append, List.map_cons]
        rw [List.append_assoc]
        rfl

theorem foldl_pp_calls_keys (o : StoreOracle) (rid : Nat) :
    ∀ (gs : List (String × List Scenario)) (acc : UploadState),
    (gs.foldl (processPersona o rid) acc).upsertCalls.map Prod.fst
      = acc.upsertCalls.map Prod.fst ++
          (gs.filter (fun g => o.suiteInsertFails g.1 = false)).map Prod.fst := by
  intro gs
  induction gs with
  | nil => intro acc; simp
  | cons g rest ih =>
      intro acc
      rw [List.foldl_cons, List.filter_cons]
      by_cases hf : o.suiteInsertFails g.1 = true
      · rw [processPersona_fail o rid acc g hf]
        have hd : (decide (o.suiteInsertFails g.1 = false)) = false := by simp [hf]
        rw [hd]
        simp only [Bool.false_eq_true, if_false]
        exact ih acc
      · have hf2 : o.suiteInsertFails g.1 = false := by simpa using hf
        rw [processPersona_ok o rid acc g hf2, ih]
        have hd : (decide (o.suiteInsertFails g.1 = false)) = true := by simp [hf2]
        rw [hd]
        simp only [if_true, List.map_append, List.map_cons]
        rw [List.append_assoc]
        rfl

theorem foldl_pp_calls_mono (o : StoreOracle) (rid : Nat) :
    ∀ (gs : List (String × List Scenario)) (acc : UploadState)
      (pb : String × List TestRecord),
    pb ∈ acc.upsertCalls → pb ∈ (gs.foldl (processPersona o rid) acc).upsertCalls := by
  intro gs
  induction gs with
  | nil => intro acc pb h; exact h
  | cons g rest ih =>
      intro acc pb h
      rw [List.foldl_cons]
      by_cases hf : o.suiteInsertFails g.1 = true
      · rw [processPersona_fail o rid acc g hf]
        exact ih acc pb h
      · have hf2 : o.suiteInsertFails g.1 = false := by simpa using hf
        rw [processPersona_ok o rid acc g hf2]
        apply ih
        exact List.mem_append.mpr (Or.inl h)

theorem foldl_pp_calls_complete (o : StoreOracle) (rid : Nat) :
    ∀ (gs : List (String × List Scenario)) (acc : UploadState),
    ∀ g ∈ gs, o.suiteInsertFails g.1 = false →
    ∃ sid, (g.1, (dedupByDescription g.2).map (mkTestRecord sid))
      ∈ (gs.foldl (processPersona o rid) acc).upsertCalls := by
  intro gs
  induction gs with
  | nil => intro acc g h; simp at h
  | cons g0 rest ih =>
      intro acc g hg hf
      rw [List.foldl_cons]
      rcases List.mem_cons.mp hg with h1 | h1
      · subst h1
        refine ⟨acc.store.nextId, ?_⟩
        rw [processPersona_ok o rid acc g hf]
        apply foldl_pp_calls_mono
        simp
      · by_cases hf0 : o.suiteInsertFails g0.1 = true
        · rw [processPersona_fail o rid acc g0 hf0]
          exact ih acc g h1 hf
        · have hf2 : o.suiteInsertFails g0.1 = false := by simpa using hf0
          rw [processPersona_ok o rid acc g0 hf2]
          exact ih _ g h1 hf

theorem foldl_pp_names_mono (o : StoreOracle) (rid : Nat) :
    ∀ (gs : List (String × List Scenario)) (acc : UploadState) (n : String),
    n ∈ acc.store.tests.map (fun t => t.name) →
    n ∈ (gs.foldl (processPersona o rid) acc).store.tests.map (fun t => t.name) := by
  intro gs
  induction gs with
  | nil => intro acc n h; exact h
  | cons g rest ih =>
      intro acc n h
      rw [List.foldl_cons]
      by_cases hf : o.suiteInsertFails g.1 = true
      · rw [processPersona_fail o rid acc g hf]
        exact ih acc n h
      · have hf2 : o.suiteInsertFails g.1 = false := by simpa using hf
        rw [processPersona_ok o rid acc g hf2]
        apply ih
        by_cases ht : o.testsUpsertFails g.1 = true
        · simpa [ht] using h
        · have ht2 : o.testsUpsertFails g.1 = false := by simpa using ht
          simp only [ht2, Bool.false_eq_true, if_false]
          exact upsertTestList_names_mono _ _ n h

theorem foldl_pp_names_present (o : StoreOracle) (rid : Nat) :
    ∀ (gs : List (String × List Scenario)) (acc : UploadState),
    ∀ g ∈ gs, o.suiteInsertFails g.1 = false → o.testsUpsertFails g.1 = false →
    ∀ d ∈ (dedupByDescription g.2).map (fun s => s.description),
      d ∈ (gs.foldl (processPersona o rid) acc).store.tests.map (fun t => t.name) := by
  intro gs
  induction gs with
  | nil => intro acc g h; simp at h
  | cons g0 rest ih =>
      intro acc g hg hf ht d hd
      rw [List.foldl_cons]
      rcases List.mem_cons.mp hg with h1 | h1
      · subst h1
        rw [processPersona_ok o rid acc g hf]
        apply foldl_pp_names_mono
        simp only [ht, Bool.false_eq_true, if_false]
        obtain ⟨s, hs, hsd⟩ := List.mem_map.mp hd
        have hrec : (mkTestRecord acc.store.nextId s)
            ∈ (dedupByDescription g.2).map (mkTestRecord acc.store.nextId) :=
          List.mem_map.mpr ⟨s, hs, rfl⟩
        have := upsertTestList_self _ acc.store.tests _ hrec
        simpa [mkTestRecord, hsd] using this
      · by_cases hf0 : o.suiteInsertFails g0.1 = true
        · rw [processPersona_fail o rid acc g0 hf0]
          exact ih acc g h1 hf ht d hd
        · have hf2 : o.suiteInsertFails g0.1 = false := by simpa using hf0
          rw [processPersona_ok o rid acc g0 hf2]
          exact ih _ g h1 hf ht d hd

theorem foldl_pp_names_eq (o : StoreOracle) (rid : Nat) :
    ∀ (gs : List (String × List Scenario)) (acc : UploadState),
    (∀ g ∈ gs, ∀ d ∈ (dedupByDescription g.2).map (fun s => s.description),
      d ∈ acc.store.tests.map (fun t => t.name)) →
    (gs.foldl (processPersona o rid) acc).store.tests.map (fun t => t.name)
      = acc.store.tests.map (fun t => t.name) := by
  intro gs
  induction gs with
  | nil => intro acc _; rfl
  | cons g rest ih =>
      intro acc hall
      rw [List.foldl_cons]
      by_cases hf : o.suiteInsertFails g.1 = true
      · rw [processPersona_fail o rid acc g hf]
        exact ih acc (fun g' hg' => hall g' (by simp [hg']))
      · have hf2 : o.suiteInsertFails g.1 = false := by simpa using hf
        rw [processPersona_ok o rid acc g hf2]
        by_cases ht : o.testsUpsertFails g.1 = true
        · simp only [ht, if_true]
          exact ih _ (fun g' hg' => hall g' (by simp [hg']))
        · have ht2 : o.testsUpsertFails g.1 = false := by simpa using ht
          simp only [ht2, Bool.false_eq_true, if_false]
          have hsub : ∀ r ∈ (dedupByDescription g.2).map (mkTestRecord acc.store.nextId),
              r.name ∈ acc.store.tests.map (fun t => t.name) := by
            intro r hr
            obtain ⟨s, hs, hrs⟩ := List.mem_map.mp hr
            have : s.description ∈ (dedupByDescription g.2).map (fun s => s.description) :=
              List.mem_map.mpr ⟨s, hs, rfl⟩
            have hmem := hall g (by simp) s.description this
            rw [← hrs]
            exact hmem
          have heq := upsertTestList_names_of_mem _ acc.store.tests hsub
          have hstep : ∀ g' ∈ rest,
              ∀ d ∈ (dedupByDescription g'.2).map (fun s => s.description),
              d ∈ (upsertTestList acc.store.tests
                ((dedupByDescription g.2).map (mkTestRecord acc.store.nextId))).map
                  (fun t => t.name) := by
            intro g' hg' d hd
            rw [heq]
            exact hall g' (by simp [hg']) d hd
          rw [ih _ hstep]
          exact heq

theorem foldl_pp_tests_from (o : StoreOracle) (rid : Nat) :
    ∀ (gs : List (String × List Scenario)) (acc : UploadState),
    ∀ t ∈ (gs.foldl (processPersona o rid) acc).store.tests,
      t ∈ acc.store.tests ∨
        ∃ g ∈ gs, ∃ s ∈ dedupByDescription g.2, ∃ sid, t = mkTestRecord sid s := by
  intro gs
  induction gs with
  | nil => intro acc t h; exact Or.inl h
  | cons g rest ih =>
      intro acc t h
      rw [List.foldl_cons] at h
      by_cases hf : o.suiteInsertFails g.1 = true
      · rw [processPersona_fail o rid acc g hf] at h
        rcases ih acc t h with h1 | ⟨g', hg', hrest⟩
        · exact Or.inl h1
        · exact Or.inr ⟨g', by simp [hg'], hrest⟩
      · have hf2 : o.suiteInsertFails g.1 = false := by simpa using hf
        rw [processPersona_ok o rid acc g hf2] at h
        rcases ih _ t h with h1 | ⟨g', hg', hrest⟩
        · by_cases ht : o.testsUpsertFails g.1 = true
          · rw [if_pos ht] at h1
            exact Or.inl h1
          · rw [if_neg ht] at h1
            rcases upsertTestList_mem _ acc.store.tests t h1 with h2 | h2
            · exact Or.inl h2
            · obtain ⟨s, hs, hts⟩ := List.mem_map.mp h2
              exact Or.inr ⟨g, by simp, s, hs, acc.store.nextId, hts.symm⟩
        · exact Or.inr ⟨g', by simp [hg'], hrest⟩

theorem foldl_pp_names_nodup (o : StoreOracle) (rid : Nat) :
    ∀ (gs : List (String × List Scenario)) (acc : UploadState),
    (acc.store.tests.map (fun t => t.name)).Nodup →
    ((gs.foldl (processPersona o rid) acc).store.tests.map (fun t => t.name)).Nodup := by
  intro gs
  induction gs with
  | nil => intro acc h; exact h
  | cons g rest ih =>
      intro acc h
      rw [List.foldl_cons]
      by_cases hf : o.suiteInsertFails g.1 = true
      · rw [processPersona_fail o rid acc g hf]
        exact ih acc h
      · have hf2 : o.suiteInsertFails g.1 = false := by simpa using hf
        rw [processPersona_ok o rid acc g hf2]
        apply ih
        by_cases ht : o.testsUpsertFails g.1 = true
        · simpa [ht] using h
        · have ht2 : o.testsUpsertFails g.1 = false := by simpa using ht
          simp only [ht2, Bool.false_eq_true, if_false]
          exact upsertTestList_names_nodup _ acc.store.tests h

theorem foldl_pp_tests_length (o : StoreOracle) (rid : Nat) :
    ∀ (gs : List (String × List Scenario)) (acc : UploadState),
    (gs.foldl (processPersona o rid) acc).store.tests.length
      ≤ acc.store.tests.length +
          (gs.map (fun g => (dedupByDescription g.2).length)).sum := by
  intro gs
  induction gs with
  | nil => intro acc; simp
  | cons g rest ih =>
      intro acc
      rw [List.foldl_cons]
      by_cases hf : o.suiteInsertFails g.1 = true
      · rw [processPersona_fail o rid acc g hf]
        have := ih acc
        simp only [List.map_cons, List.sum_cons]
        omega
      · have hf2 : o.suiteInsertFails g.1 = false := by simpa using hf
        rw [processPersona_ok o rid acc g hf2]
        refine le_trans (ih _) ?_
        simp only [List.map_cons, List.sum_cons]
        by_cases ht : o.testsUpsertFails g.1 = true
        · simp only [ht, if_true]
          omega
        · have ht2 : o.testsUpsertFails g.1 = false := by simpa using ht
          simp only [ht2, Bool.false_eq_true, if_false]
          have h2 := upsertTestList_length_le
            ((dedupByDescription g.2).map (mkTestRecord acc.store.nextId)) acc.store.tests
          rw [List.length_map] at h2
          omega

theorem sum_map_bump {α : Type} (P : α → Prop) [DecidablePred P] (f g : α → Nat) :
    ∀ l : List α, (∀ a ∈ l, g a = if P a then f a + 1 else f a) →
    (l.map g).sum = (l.map f).sum + l.countP (fun a => P a) := by
  intro l
  induction l with
  | nil => intro _; simp
  | cons a t ih =>
      intro h
      have ha := h a (by simp)
      have iht := ih (fun x hx => h x (by simp [hx]))
      simp only [List.map_cons, List.sum_cons, List.countP_cons]
      by_cases hp : P a
      · rw [ha, if_pos hp, iht]
        simp only [decide_eq_true hp, if_true]
        omega
      · rw [ha, if_neg hp, iht]
        simp only [decide_eq_false hp, Bool.false_eq_true, if_false]
        omega

theorem countP_fst_eq_one {β : Type} (acc : List (String × β)) (p : String)
    (hnd : (acc.map Prod.fst).Nodup) (hmem : p ∈ acc.map Prod.fst) :
    acc.countP (fun t => t.1 = p) = 1 := by
  have h1 : acc.countP (fun t => t.1 = p) = (acc.map Prod.fst).countP (fun x => x = p) := by
    rw [List.countP_map]
    rfl
  have h2 : (acc.map Prod.fst).countP (fun x => x = p) = (acc.map Prod.fst).count p := by
    rw [List.count]
    apply List.countP_congr
    intro x _
    by_cases hx : x = p <;> simp [hx]
  rw [h1, h2]
  exact List.count_eq_one_of_mem hnd hmem

theorem insertGroup_keys_nodup (acc : List (String × List Scenario)) (s : Scenario)
    (h : (acc.map Prod.fst).Nodup) :
    ((insertGroup acc s).map Prod.fst).Nodup := by
  rw [insertGroup_keys]
  by_cases hp : personaOf s ∈ acc.map Prod.fst
  · rw [if_pos hp]; exact h
  · rw [if_neg hp]
    refine List.Nodup.append h (by simp) ?_
    intro a ha hb
    rw [List.mem_singleton] at hb
    subst hb
    exact hp ha

theorem insertGroup_sizes (acc : List (String × List Scenario)) (s : Scenario)
    (h : (acc.map Prod.fst).Nodup) :
    ((insertGroup acc s).map (fun g => g.2.length)).sum
      = (acc.map (fun g => g.2.length)).sum + 1 := by
  unfold insertGroup upsertAssoc
  by_cases hp : personaOf s ∈ acc.map Prod.fst
  · rw [if_pos ((any_fst_eq_iff acc (personaOf s)).mpr hp), List.map_map]
    have hb := sum_map_bump (fun t : String × List Scenario => t.1 = personaOf s)
      (fun g => g.2.length)
      ((fun g => g.2.length) ∘ fun t =>
        if t.1 = personaOf s then (t.1, t.2 ++ [s]) else t) acc ?_
    · rw [hb, countP_fst_eq_one acc (personaOf s) h hp]
    · intro a _
      by_cases hap : a.1 = personaOf s
      · simp [hap]
      · simp [hap]
  · rw [if_neg (fun hc => hp ((any_fst_eq_iff acc (personaOf s)).mp hc))]
    rw [List.map_append, List.sum_append]
    simp

theorem foldl_insertGroup_sizes :
    ∀ (l : List Scenario) (acc : List (String × List Scenario)),
    (acc.map Prod.fst).Nodup →
    ((l.foldl insertGroup acc).map (fun g => g.2.length)).sum
      = (acc.map (fun g => g.2.length)).sum + l.length := by
  intro l
  induction l with
  | nil => intro acc _; simp
  | cons s rest ih =>
      intro acc h
      rw [List.foldl_cons]
      rw [ih (insertGroup acc s) (insertGroup_keys_nodup acc s h)]
      rw [insertGroup_sizes acc s h]
      simp only [List.length_cons]
      omega

theorem groupByPersona_sizes (ss : List Scenario) :
    ((groupByPersona ss).map (fun g => g.2.length)).sum = ss.length := by
  have h := foldl_insertGroup_sizes ss [] (by simp)
  simpa using h

theorem sum_take_le (l : List Nat) (n : Nat) : (l.take n).sum ≤ l.sum := by
  conv_rhs => rw [← List.take_append_drop n l]
  rw [List.sum_append]
  omega

theorem sum_map_eq_iff {α : Type} (f g : α → Nat) :
    ∀ (l : List α), (∀ a ∈ l, f a ≤ g a) →
    (((l.map f).sum = (l.map g).sum) ↔ ∀ a ∈ l, f a = g a) := by
  intro l
  induction l with
  | nil => intro _; simp
  | cons a t ih =>
      intro h
      have ha := h a (by simp)
      have hle : (t.map f).sum ≤ (t.map g).sum :=
        List.sum_le_sum (fun i hi => h i (by simp [hi]))
      have iht := ih (fun i hi => h i (by simp [hi]))
      simp only [List.map_cons, List.sum_cons]
      constructor
      · intro he
        have h1 : f a = g a ∧ (t.map f).sum = (t.map g).sum := by omega
        intro x hx
        rcases List.mem_cons.mp hx with h2 | h2
        · subst h2; exact h1.1
        · exact (iht.mp h1.2) x h2
      · intro hall
        have h1 : f a = g a := hall a (by simp)
        have h2 : ∀ x ∈ t, f x = g x := fun x hx => hall x (by simp [hx])
        rw [h1, iht.mpr h2]

theorem foldl_pp_inv (o : StoreOracle) (rid : Nat) :
    ∀ (gs : List (String × List Scenario)) (acc : UploadState),
    SuitesWf acc.store → CallsLinked rid acc →
    SuitesWf (gs.foldl (processPersona o rid) acc).store ∧
      CallsLinked rid (gs.foldl (processPersona o rid) acc) := by
  intro gs
  induction gs with
  | nil => intro acc h1 h2; exact ⟨h1, h2⟩
  | cons g rest ih =>
      intro acc h1 h2
      rw [List.foldl_cons]
      by_cases hf : o.suiteInsertFails g.1 = true
      · rw [processPersona_fail o rid acc g hf]
        exact ih acc h1 h2
      · have hf2 : o.suiteInsertFails g.1 = false := by simpa using hf
        rw [processPersona_ok o rid acc g hf2]
        apply ih
        · constructor
          · intro su hsu
            rcases List.mem_append.mp hsu with hi | hi
            · have := h1.1 su hi
              simp only []
              omega
            · rw [List.mem_singleton] at hi
              subst hi
              simp
          · simp only [List.map_append]
            refine List.Nodup.append h1.2 (by simp) ?_
            intro a ha hb
            simp only [List.map_cons, List.map_nil, List.mem_singleton] at hb
            obtain ⟨su, hsu, hid⟩ := List.mem_map.mp ha
            have := h1.1 su hsu
            omega
        · intro pb hpb
          rcases List.mem_append.mp hpb with hi | hi
          · obtain ⟨su, hsu, hprops⟩ := h2 pb hi
            exact ⟨su, List.mem_append.mpr (Or.inl hsu), hprops⟩
          · rw [List.mem_singleton] at hi
            subst hi
            refine ⟨⟨acc.store.nextId, rid, g.1 ++ " Agent Suite"⟩, by simp, rfl, rfl, ?_⟩
            intro r hr
            obtain ⟨s, _, hrs⟩ := List.mem_map.mp hr
            rw [← hrs]
            rfl

theorem string_append_right_cancel (a b c : String) (h : a ++ c = b ++ c) :
    a = b := by
  apply String.ext
  have hd := congrArg String.data h
  rw [String.data_append, String.data_append] at hd
  exact List.append_cancel_right hd

theorem upload_ok (o : StoreOracle) (st : Store) (pl pn : String)
    (ss : List Scenario) (h : o.resultInsertFails = false) :
    uploadScenariosToDatabase o st pl pn ss =
      { store := (uploadFold o st pl pn ss).store
        resultId := some st.nextId
        suiteIds := (uploadFold o st pl pn ss).suiteIds
        upsertCalls := (uploadFold o st pl pn ss).upsertCalls } := by
  unfold uploadScenariosToDatabase uploadFold uploadInit
  rw [if_neg (by simp [h])]

theorem upload_fail (o : StoreOracle) (st : Store) (pl pn : String)
    (ss : List Scenario) (h : o.resultInsertFails = true) :
    uploadScenariosToDatabase o st pl pn ss =
      { store := st, resultId := none, suiteIds := [], upsertCalls := [] } := by
  unfold uploadScenariosToDatabase
  rw [if_pos h]

theorem filter_and_split (tests : List TestRecord) (sid : Nat) :
    tests.filter (fun t => t.suite_id = sid ∧ t.test_success = some true)
      = (tests.filter (fun t => t.suite_id = sid)).filter
          (fun t => t.test_success = some true) := by
  rw [List.filter_filter]
  apply List.filter_congr
  intro t _
  rw [Bool.decide_and, Bool.and_comm]

theorem runPassed_le_runTotal (st : Store) (rid : Nat) :
    runPassed st rid ≤ runTotal st rid := by
  unfold runPassed runTotal
  apply List.sum_le_sum
  intro s _
  rw [filter_and_split]
  exact List.length_filter_le _ _

theorem runPassed_eq_total_iff (st : Store) (rid : Nat) :
    (runPassed st rid = runTotal st rid) ↔ runAllPassed st rid := by
  unfold runPassed runTotal runAllPassed
  rw [sum_map_eq_iff _ _ _ (by
    intro s _
    rw [filter_and_split]
    exact List.length_filter_le _ _)]
  constructor
  · intro h s hs hsr t ht hts
    have hsmem : s ∈ st.suites.filter (fun s => s.result_id = rid) :=
      List.mem_filter.mpr ⟨hs, by simp [hsr]⟩
    have heq := h s hsmem
    rw [filter_and_split] at heq
    have hall := List.filter_length_eq_length.mp heq
    have htmem : t ∈ st.tests.filter (fun t => t.suite_id = s.id) :=
      List.mem_filter.mpr ⟨ht, by simp [hts]⟩
    have := hall t htmem
    simpa using this
  · intro h s hsmem
    obtain ⟨hs, hsr⟩ := List.mem_filter.mp hsmem
    rw [decide_eq_true_eq] at hsr
    rw [filter_and_split]
    apply List.filter_length_eq_length.mpr
    intro t htmem
    obtain ⟨ht, hts⟩ := List.mem_filter.mp htmem
    rw [decide_eq_true_eq] at hts
    have := h s hs hsr t ht hts
    simp [this]

theorem verifyFinalResults_found (st : Store) (rid : Nat) (r : ResultRecord)
    (hr : st.results.find? (fun x => x.id = rid) = some r) :
    verifyFinalResults st rid =
      (r.run_status = "PASSED" ||
        (runPassed st rid = runTotal st rid && runTotal st rid > 0)) := by
  unfold verifyFinalResults
  rw [hr]

theorem string_trim_empty : "".trim = "" := by
  unfold String.trim Substring.trim String.toSubstring
  simp [Substring.trimLeft, Substring.trimRight, Substring.takeWhileAux,
    Substring.takeRightWhileAux, Substring.toString, String.extract]

theorem setRunStatusFailed_spec (st : Store) (rid : Nat) :
    ∀ r ∈ (setRunStatusFailed st rid).results, r.id = rid →
      r.run_status = "FAILED" := by
  intro r hr hid
  unfold setRunStatusFailed at hr
  obtain ⟨r0, hr0, hri⟩ := List.mem_map.mp hr
  by_cases h0 : r0.id = rid
  · rw [if_pos h0] at hri
    rw [← hri]
  · rw [if_neg h0] at hri
    subst hri
    exact absurd hid h0

theorem upload_tests_length (o : StoreOracle) (st : Store) (pl pn : String)
    (ss : List Scenario) :
    (uploadScenariosToDatabase o st pl pn ss).store.tests.length
      ≤ st.tests.length + ss.length := by
  by_cases h : o.resultInsertFails = true
  · rw [upload_fail o st pl pn ss h]
    simp
  · have h2 : o.resultInsertFails = false := by simpa using h
    have hb := foldl_pp_tests_length o st.nextId ((groupByPersona ss).take 4)
      (uploadInit st pl pn)
    have hinit : (uploadInit st pl pn).store.tests = st.tests := rfl
    rw [hinit] at hb
    have hsum : (((groupByPersona ss).take 4).map
        (fun g => (dedupByDescription g.2).length)).sum ≤ ss.length := by
      calc (((groupByPersona ss).take 4).map
            (fun g => (dedupByDescription g.2).length)).sum
          ≤ (((groupByPersona ss).take 4).map (fun g => g.2.length)).sum :=
            List.sum_le_sum (fun g _ => dedupByDescription_length_le g.2)
        _ = (((groupByPersona ss).map (fun g => g.2.length)).take 4).sum := by
            rw [List.map_take]
        _ ≤ ((groupByPersona ss).map (fun g => g.2.length)).sum :=
            sum_take_le _ _
        _ = ss.length := groupByPersona_sizes ss
    have hfold : (uploadFold o st pl pn ss).store.tests.length
        ≤ st.tests.length + (((groupByPersona ss).take 4).map
            (fun g => (dedupByDescription g.2).length)).sum := hb
    calc (uploadScenariosToDatabase o st pl pn ss).store.tests.length
        = (uploadFold o st pl pn ss).store.tests.length := by
          rw [upload_ok o st pl pn ss h2]
      _ ≤ st.tests.length + ss.length := by omega

/-- C1 (counterexample): at a snapshot whose run row already says PASSED
while one test outcome is still null, verifyFinalResults reports
success even though not every test outcome is true, refuting the
claimed iff. -/
theorem claimC1_counterexample :
    verifyFinalResults c1cexStore 0 = true ∧
    ¬ (0 < runTotal c1cexStore 0 ∧ runAllPassed c1cexStore 0) := by
  constructor
  · rfl
  · rintro ⟨-, hall⟩
    have := hall ⟨1, 0, "A Agent Suite"⟩ (by simp [c1cexStore]) rfl
      ⟨1, "d", "s", none, "RUNNING", []⟩ (by simp [c1cexStore]) rfl
    simp at this

/-- C1 (amended): the verdict verifyFinalResults computes from a read
back snapshot is PASSED iff the stored run_status is the token PASSED,
or the total test count is positive and every test outcome is exactly
true (a null outcome never counts); when the stored status is not
PASSED, a run with zero persisted tests yields FAILED. -/
theorem claimC1_amended (st : Store) (rid : Nat) (r : ResultRecord)
    (hr : st.results.find? (fun x => x.id = rid) = some r) :
    (verifyFinalResults st rid = true ↔
      (r.run_status = "PASSED" ∨ (0 < runTotal st rid ∧ runAllPassed st rid))) ∧
    (r.run_status ≠ "PASSED" → runTotal st rid = 0 →
      verifyFinalResults st rid = false) := by
  have hv := verifyFinalResults_found st rid r hr
  constructor
  · rw [hv]
    simp only [Bool.or_eq_true, Bool.and_eq_true, decide_eq_true_eq, gt_iff_lt]
    rw [runPassed_eq_total_iff]
    constructor
    · rintro (h | ⟨h1, h2⟩)
      · exact Or.inl h
      · exact Or.inr ⟨h2, h1⟩
    · rintro (h | ⟨h1, h2⟩)
      · exact Or.inl h
      · exact Or.inr ⟨h2, h1⟩
  · intro hs h0
    rw [hv]
    simp [hs, h0]

/-- C1 (witness): the amended equivalence instantiated at a concrete
snapshot with one passed test and a RUNNING run row. -/
theorem claimC1_witness :
    (c1okStore.results.find? (fun x => x.id = 0)
        = some ⟨0, "L", "N", "RUNNING", none⟩) ∧
    (verifyFinalResults c1okStore 0 = true ↔
      ((("RUNNING" : String) = "PASSED") ∨
        (0 < runTotal c1okStore 0 ∧ runAllPassed c1okStore 0))) :=
  ⟨rfl, (claimC1_amended c1okStore 0 ⟨0, "L", "N", "RUNNING", none⟩ rfl).1⟩

/-- C5: runTests accepts only a response whose status field equals the
token success; any other status or a thrown network error or timeout
leaves verification unattempted, forces the run row to FAILED and
returns failure. -/
theorem claimC5 (st : Store) (rid : Nat) (d : DispatchOutcome) :
    ((runTests true (some rid) d st).verified = true ↔
      d = DispatchOutcome.response (some "success")) ∧
    ((runTests true (some rid) d st).dispatched = true) ∧
    (d ≠ DispatchOutcome.response (some "success") →
      runTests true (some rid) d st =
        { store := setRunStatusFailed st rid
          dispatched := true, verified := false, success := false } ∧
      ∀ r ∈ (setRunStatusFailed st rid).results, r.id = rid →
        r.run_status = "FAILED") := by
  cases d with
  | netError =>
      refine ⟨by simp [runTests], by simp [runTests], ?_⟩
      intro _
      exact ⟨by simp [runTests], setRunStatusFailed_spec st rid⟩
  | response status =>
      by_cases hs : status = some "success"
      · subst hs
        refine ⟨by simp [runTests], by simp [runTests], ?_⟩
        intro hne
        exact absurd rfl hne
      · refine ⟨by simp [runTests, hs], by simp [runTests, hs], ?_⟩
        intro _
        exact ⟨by simp [runTests, hs], setRunStatusFailed_spec st rid⟩

/-- C5 (witness): the failure branch instantiated at a timed-out
dispatch against the concrete one-test store. -/
theorem claimC5_witness :
    DispatchOutcome.netError ≠ DispatchOutcome.response (some "success") ∧
    runTests true (some 0) DispatchOutcome.netError c1okStore =
      { store := setRunStatusFailed c1okStore 0
        dispatched := true, verified := false, success := false } :=
  ⟨by simp, ((claimC5 c1okStore 0 DispatchOutcome.netError).2.2 (by simp)).1⟩

/-- C6: when the results insert is rejected no suite or test row is
written, no resultId is kept, and runTests then reports failure without
ever dispatching the agent. -/
theorem claimC6 (o : StoreOracle) (st : Store) (pl pn : String)
    (scenarios : List Scenario) (h : o.resultInsertFails = true) :
    (uploadScenariosToDatabase o st pl pn scenarios).store = st ∧
    (uploadScenariosToDatabase o st pl pn scenarios).resultId = none ∧
    (uploadScenariosToDatabase o st pl pn scenarios).upsertCalls = [] ∧
    (uploadScenariosToDatabase o st pl pn scenarios).suiteIds = [] ∧
    ∀ (ec : Bool) (d : DispatchOutcome),
      runTests ec (uploadScenariosToDatabase o st pl pn scenarios).resultId d
          (uploadScenariosToDatabase o st pl pn scenarios).store =
        { store := st, dispatched := false, verified := false, success := false } := by
  rw [upload_fail o st pl pn scenarios h]
  refine ⟨rfl, rfl, rfl, rfl, ?_⟩
  intro ec d
  cases ec
  · rfl
  · rfl

/-- C6 (witness): the run-creation failure path at a concrete oracle
and store. -/
theorem claimC6_witness :
    failRunOracle.resultInsertFails = true ∧
    (uploadScenariosToDatabase failRunOracle emptyStore "L" "N" mixedScenarios).store
      = emptyStore :=
  ⟨rfl, (claimC6 failRunOracle emptyStore "L" "N" mixedScenarios rfl).1⟩

/-- C9: a summary that is absent, not a string, or blank after trimming
is replaced by the synthesized template, a non-blank string summary is
kept unchanged, and every scenario leaving analyzePR is the
normalization of one of the parsed drafts. -/
theorem claimC9 (url : String) (parsed : List RawScenario) (s : RawScenario) :
    (∀ t, s.summary = JsStr.str t → t.trim ≠ "" → effectiveSummary url s = t) ∧
    ((s.summary = JsStr.absent ∨ s.summary = JsStr.nonString ∨
        ∃ t, s.summary = JsStr.str t ∧ t.trim = "") →
      effectiveSummary url s = synthesizedSummary url s) ∧
    (∀ out ∈ analyzePRScenarios url parsed, ∃ raw ∈ parsed,
      out = normalizeScenario url raw) := by
  refine ⟨?_, ?_, ?_⟩
  · intro t hst htr
    unfold effectiveSummary
    rw [hst]
    have hne : t ≠ "" := by
      intro hc
      subst hc
      exact htr string_trim_empty
    show (if t ≠ "" ∧ t.trim ≠ "" then t else synthesizedSummary url s) = t
    rw [if_pos ⟨hne, htr⟩]
  · intro hcase
    unfold effectiveSummary
    rcases hcase with h | h | ⟨t, hst, htr⟩
    · rw [h]
    · rw [h]
    · rw [hst]
      show (if t ≠ "" ∧ t.trim ≠ "" then t else synthesizedSummary url s)
        = synthesizedSummary url s
      rw [if_neg]
      exact fun hc => hc.2 htr
  · intro out hout
    unfold analyzePRScenarios at hout
    obtain ⟨raw, hraw, hni⟩ := List.mem_map.mp hout
    refine ⟨raw, ?_, hni.symm⟩
    by_cases hlen : parsed.length > 4
    · rw [if_pos hlen] at hraw
      exact List.Sublist.mem hraw (List.take_sublist 4 parsed)
    · rw [if_neg hlen] at hraw
      exact hraw

/-- C9 (witness): a draft with an absent summary gets the synthesized
template. -/
theorem claimC9_witness :
    rawNoSummary.summary = JsStr.absent ∧
    effectiveSummary "u" rawNoSummary = synthesizedSummary "u" rawNoSummary :=
  ⟨rfl, (claimC9 "u" [] rawNoSummary).2.1 (Or.inl rfl)⟩

/-- C10: analyzePR truncates the parsed scenario list to its first 4
elements (counting scenarios, not personas) before any grouping, the
output length is the minimum of the input length and 4, and a
subsequent persist adds at most 4 test rows to the store, for every
failure oracle. -/
theorem claimC10 (url : String) (parsed : List RawScenario) (o : StoreOracle)
    (st : Store) (pl pn : String) :
    analyzePRScenarios url parsed = (parsed.take 4).map (normalizeScenario url) ∧
    (analyzePRScenarios url parsed).length = min parsed.length 4 ∧
    (uploadScenariosToDatabase o st pl pn
        (analyzePRScenarios url parsed)).store.tests.length
      ≤ st.tests.length + 4 := by
  have h1 : analyzePRScenarios url parsed
      = (parsed.take 4).map (normalizeScenario url) := by
    unfold analyzePRScenarios
    by_cases hlen : parsed.length > 4
    · rw [if_pos hlen]
    · rw [if_neg hlen, List.take_of_length_le (by omega)]
  have h2 : (analyzePRScenarios url parsed).length = min parsed.length 4 := by
    rw [h1, List.length_map, List.length_take]
    exact Nat.min_comm 4 parsed.length
  refine ⟨h1, h2, ?_⟩
  have h3 : (analyzePRScenarios url parsed).length ≤ 4 := by
    rw [h2]
    exact Nat.min_le_right _ _
  have h4 := upload_tests_length o st pl pn (analyzePRScenarios url parsed)
  omega

/-- C2: with an error-free store, the persist step creates suite rows
for exactly the first 4 distinct personas in order of first appearance
(so exactly 4 new suites whenever at least 4 distinct personas exist),
and every test row that reaches storage carries the description and
summary of a scenario whose persona is among those first 4. -/
theorem claimC2 (o : StoreOracle) (st : Store) (pl pn : String)
    (scenarios : List Scenario)
    (hrun : o.resultInsertFails = false)
    (hok : ∀ q, o.suiteInsertFails q = false) :
    ((uploadScenariosToDatabase o st pl pn scenarios).store.suites.map
        (fun s => (s.result_id, s.name))
      = st.suites.map (fun s => (s.result_id, s.name)) ++
          ((firstDistinct (scenarios.map personaOf)).take 4).map
            (fun q => (st.nextId, q ++ " Agent Suite"))) ∧
    ((firstDistinct (scenarios.map personaOf)).Nodup) ∧
    (4 ≤ (firstDistinct (scenarios.map personaOf)).length →
      (uploadScenariosToDatabase o st pl pn scenarios).store.suites.length
        = st.suites.length + 4) ∧
    (∀ t ∈ (uploadScenariosToDatabase o st pl pn scenarios).store.tests,
      t ∈ st.tests ∨ ∃ s ∈ scenarios,
        personaOf s ∈ (firstDistinct (scenarios.map personaOf)).take 4 ∧
        t.name = s.description ∧ t.summary = s.summary) := by
  have hfil : ((groupByPersona scenarios).take 4).filter
      (fun g => o.suiteInsertFails g.1 = false) = (groupByPersona scenarios).take 4 :=
    List.filter_eq_self.mpr (by
      intro g _
      simp [hok])
  have hkeys : ((groupByPersona scenarios).take 4).map Prod.fst
      = (firstDistinct (scenarios.map personaOf)).take 4 := by
    rw [List.map_take, groupByPersona_keys]
  have hsuites : (uploadFold o st pl pn scenarios).store.suites.map
      (fun s => (s.result_id, s.name))
      = st.suites.map (fun s => (s.result_id, s.name)) ++
          ((firstDistinct (scenarios.map personaOf)).take 4).map
            (fun q => (st.nextId, q ++ " Agent Suite")) := by
    have h2 := foldl_pp_suites o st.nextId ((groupByPersona scenarios).take 4)
      (uploadInit st pl pn)
    have hstep : (uploadFold o st pl pn scenarios).store.suites
        = (((groupByPersona scenarios).take 4).foldl (processPersona o st.nextId)
            (uploadInit st pl pn)).store.suites := rfl
    rw [hstep, h2, hfil]
    have hinit : (uploadInit st pl pn).store.suites = st.suites := rfl
    rw [hinit]
    congr 1
    have hcomp : (fun (g : String × List Scenario) => (st.nextId, g.1 ++ " Agent Suite"))
        = (fun q => (st.nextId, q ++ " Agent Suite")) ∘ Prod.fst := rfl
    rw [hcomp, ← List.map_map, hkeys]
  have hupload : (uploadScenariosToDatabase o st pl pn scenarios).store
      = (uploadFold o st pl pn scenarios).store := by
    rw [upload_ok o st pl pn scenarios hrun]
  refine ⟨?_, firstDistinct_nodup _, ?_, ?_⟩
  · rw [hupload]
    exact hsuites
  · intro h4
    have hlen := congrArg List.length hsuites
    rw [List.length_map, List.length_append, List.length_map, List.length_map,
      List.length_take, Nat.min_eq_left h4] at hlen
    rw [hupload, hlen]
  · intro t ht
    rw [hupload] at ht
    rcases foldl_pp_tests_from o st.nextId _ (uploadInit st pl pn) t ht with
      h1 | ⟨g, hg, s, hs, sid, hts⟩
    · exact Or.inl h1
    · right
      have hgmem : g ∈ groupByPersona scenarios :=
        List.Sublist.mem hg (List.take_sublist 4 _)
      have hgval := groupByPersona_entries scenarios g hgmem
      have hsg : s ∈ g.2 := dedupByDescription_subset g.2 s hs
      rw [hgval] at hsg
      obtain ⟨hsin, hsp⟩ := List.mem_filter.mp hsg
      rw [decide_eq_true_eq] at hsp
      refine ⟨s, hsin, ?_, ?_, ?_⟩
      · rw [hsp, ← hkeys]
        exact List.mem_map.mpr ⟨g, hg, rfl⟩
      · rw [hts]
        rfl
      · rw [hts]
        rfl

/-- C2 (witness): the suite rows created for a five-persona scenario
list persisted into the empty store. -/
theorem claimC2_witness :
    okOracle.resultInsertFails = false ∧
    (uploadScenariosToDatabase okOracle emptyStore "L" "N"
        fivePersonaScenarios).store.suites.map (fun s => (s.result_id, s.name))
      = emptyStore.suites.map (fun s => (s.result_id, s.name)) ++
          ((firstDistinct (fivePersonaScenarios.map personaOf)).take 4).map
            (fun q => (emptyStore.nextId, q ++ " Agent Suite")) :=
  ⟨rfl, (claimC2 okOracle emptyStore "L" "N" fivePersonaScenarios rfl
    (fun _ => rfl)).1⟩

/-- C3: for every retained persona group whose suite insert succeeds,
the batch submitted for that suite is the deduplication of the group by
description: its record names are the distinct descriptions in first
occurrence order (one test per distinct description) and each record
was built from the last scenario of the group carrying its
description. -/
theorem claimC3 (o : StoreOracle) (st : Store) (pl pn : String)
    (scenarios : List Scenario) (p : String) (g : List Scenario)
    (hrun : o.resultInsertFails = false)
    (hp : (p, g) ∈ (groupByPersona scenarios).take 4)
    (hok : o.suiteInsertFails p = false) :
    (∃ sid, (p, (dedupByDescription g).map (mkTestRecord sid))
        ∈ (uploadScenariosToDatabase o st pl pn scenarios).upsertCalls) ∧
    ((dedupByDescription g).map (fun s => s.description)
        = firstDistinct (g.map (fun s => s.description))) ∧
    ((dedupByDescription g).map (fun s => s.description)).Nodup ∧
    (∀ x ∈ dedupByDescription g,
      (g.filter (fun y => y.description = x.description)).getLast? = some x) := by
  refine ⟨?_, dedupByDescription_descs g, ?_, dedupByDescription_last g⟩
  · have hcalls : (uploadScenariosToDatabase o st pl pn scenarios).upsertCalls
        = (uploadFold o st pl pn scenarios).upsertCalls := by
      rw [upload_ok o st pl pn scenarios hrun]
    rw [hcalls]
    exact foldl_pp_calls_complete o st.nextId _ (uploadInit st pl pn) (p, g) hp hok
  · rw [dedupByDescription_descs g]
    exact firstDistinct_nodup _

/-- C3 (witness): the deduplicated batch submitted for persona A of the
mixed example list. -/
theorem claimC3_witness :
    (("A", [scA1, scA1b, scA2]) ∈ (groupByPersona mixedScenarios).take 4) ∧
    (∃ sid, ("A", (dedupByDescription [scA1, scA1b, scA2]).map (mkTestRecord sid))
        ∈ (uploadScenariosToDatabase okOracle emptyStore "L" "N"
            mixedScenarios).upsertCalls) :=
  ⟨by decide, (claimC3 okOracle emptyStore "L" "N" mixedScenarios "A"
    [scA1, scA1b, scA2] rfl (by decide) rfl).1⟩

/-- C7: when the suite insert of one retained persona is rejected, that
persona triggers no tests upsert at all, while the run keeps its
resultId and every other retained persona with a succeeding suite
insert is still processed: the created suites and issued upsert calls
are exactly those of the non-failing retained personas, in order. -/
theorem claimC7 (o : StoreOracle) (st : Store) (pl pn : String)
    (scenarios : List Scenario) (p : String) (g : List Scenario)
    (hrun : o.resultInsertFails = false)
    (hp : (p, g) ∈ (groupByPersona scenarios).take 4)
    (hfail : o.suiteInsertFails p = true) :
    (uploadScenariosToDatabase o st pl pn scenarios).resultId = some st.nextId ∧
    ((uploadScenariosToDatabase o st pl pn scenarios).store.suites.map
        (fun s => (s.result_id, s.name))
      = st.suites.map (fun s => (s.result_id, s.name)) ++
          (((groupByPersona scenarios).take 4).filter
            (fun h => o.suiteInsertFails h.1 = false)).map
            (fun h => (st.nextId, h.1 ++ " Agent Suite"))) ∧
    ((uploadScenariosToDatabase o st pl pn scenarios).upsertCalls.map Prod.fst
      = (((groupByPersona scenarios).take 4).filter
          (fun h => o.suiteInsertFails h.1 = false)).map Prod.fst) ∧
    p ∉ (uploadScenariosToDatabase o st pl pn scenarios).upsertCalls.map Prod.fst ∧
    (∀ q gq, (q, gq) ∈ (groupByPersona scenarios).take 4 →
      o.suiteInsertFails q = false →
      q ∈ (uploadScenariosToDatabase o st pl pn scenarios).upsertCalls.map Prod.fst) := by
  have hres : (uploadScenariosToDatabase o st pl pn scenarios).resultId
      = some st.nextId := by
    rw [upload_ok o st pl pn scenarios hrun]
  have hsuites : (uploadScenariosToDatabase o st pl pn scenarios).store.suites.map
      (fun s => (s.result_id, s.name))
      = st.suites.map (fun s => (s.result_id, s.name)) ++
          (((groupByPersona scenarios).take 4).filter
            (fun h => o.suiteInsertFails h.1 = false)).map
            (fun h => (st.nextId, h.1 ++ " Agent Suite")) := by
    have hupload : (uploadScenariosToDatabase o st pl pn scenarios).store
        = (uploadFold o st pl pn scenarios).store := by
      rw [upload_ok o st pl pn scenarios hrun]
    rw [hupload]
    exact foldl_pp_suites o st.nextId ((groupByPersona scenarios).take 4)
      (uploadInit st pl pn)
  have hcallsEq : (uploadScenariosToDatabase o st pl pn scenarios).upsertCalls.map Prod.fst
      = (((groupByPersona scenarios).take 4).filter
          (fun h => o.suiteInsertFails h.1 = false)).map Prod.fst := by
    have hcalls : (uploadScenariosToDatabase o st pl pn scenarios).upsertCalls
        = (uploadFold o st pl pn scenarios).upsertCalls := by
      rw [upload_ok o st pl pn scenarios hrun]
    rw [hcalls]
    exact foldl_pp_calls_keys o st.nextId ((groupByPersona scenarios).take 4)
      (uploadInit st pl pn)
  refine ⟨hres, hsuites, hcallsEq, ?_, ?_⟩
  · rw [hcallsEq]
    intro hmem
    obtain ⟨h, hh, hhp⟩ := List.mem_map.mp hmem
    obtain ⟨_, hdec⟩ := List.mem_filter.mp hh
    rw [decide_eq_true_eq] at hdec
    rw [hhp] at hdec
    rw [hdec] at hfail
    exact Bool.false_ne_true hfail
  · intro q gq hq hqok
    rw [hcallsEq]
    apply List.mem_map.mpr
    refine ⟨(q, gq), ?_, rfl⟩
    exact List.mem_filter.mpr ⟨hq, by simp [hqok]⟩

/-- C7 (witness): the suite insert of persona B fails on the mixed example;
no upsert call is issued for B while the run id survives. -/
theorem claimC7_witness :
    (("B", [scB3]) ∈ (groupByPersona mixedScenarios).take 4) ∧
    failSuiteBOracle.suiteInsertFails "B" = true ∧
    "B" ∉ (uploadScenariosToDatabase failSuiteBOracle emptyStore "L" "N"
        mixedScenarios).upsertCalls.map Prod.fst :=
  ⟨by decide, by decide, (claimC7 failSuiteBOracle emptyStore "L" "N" mixedScenarios
    "B" [scB3] rfl (by decide) (by decide)).2.2.2.1⟩

/-- C4 (counterexample): rerunning the persist pipeline with the
identical scenario list inserts a second results row, refuting the
claim that no new Run record is created for a rerun. -/
theorem claimC4_counterexample :
    (uploadScenariosToDatabase okOracle
        (uploadScenariosToDatabase okOracle emptyStore "L" "N" mixedScenarios).store
        "L" "N" mixedScenarios).store.results.length = 2 ∧
    (uploadScenariosToDatabase okOracle emptyStore "L" "N"
        mixedScenarios).store.results.length = 1 := by
  constructor
  · rfl
  · rfl

/-- C4 (amended): an identical rerun of the persist step upserts the
same test names, so the tests table keeps exactly the same name list
(hence the same total count and, from a name-distinct store, no
duplicate rows); however a fresh results row is inserted on every run,
so a rerun does create a new Run record. -/
theorem claimC4_amended (o : StoreOracle) (st : Store) (pl pn : String)
    (scenarios : List Scenario)
    (hrun : o.resultInsertFails = false)
    (hsuite : ∀ q, o.suiteInsertFails q = false)
    (htests : ∀ q, o.testsUpsertFails q = false) :
    ((uploadScenariosToDatabase o
        (uploadScenariosToDatabase o st pl pn scenarios).store pl pn
        scenarios).store.tests.map (fun t => t.name)
      = (uploadScenariosToDatabase o st pl pn scenarios).store.tests.map
          (fun t => t.name)) ∧
    ((uploadScenariosToDatabase o
        (uploadScenariosToDatabase o st pl pn scenarios).store pl pn
        scenarios).store.tests.length
      = (uploadScenariosToDatabase o st pl pn scenarios).store.tests.length) ∧
    ((st.tests.map (fun t => t.name)).Nodup →
      ((uploadScenariosToDatabase o
          (uploadScenariosToDatabase o st pl pn scenarios).store pl pn
          scenarios).store.tests.map (fun t => t.name)).Nodup) ∧
    ((uploadScenariosToDatabase o
        (uploadScenariosToDatabase o st pl pn scenarios).store pl pn
        scenarios).store.results.length
      = (uploadScenariosToDatabase o st pl pn scenarios).store.results.length + 1) := by
  have hstore1 : (uploadScenariosToDatabase o st pl pn scenarios).store
      = (uploadFold o st pl pn scenarios).store := by
    rw [upload_ok o st pl pn scenarios hrun]
  have hstore2 : (uploadScenariosToDatabase o
      (uploadScenariosToDatabase o st pl pn scenarios).store pl pn scenarios).store
      = (uploadFold o (uploadScenariosToDatabase o st pl pn scenarios).store
          pl pn scenarios).store := by
    rw [upload_ok o _ pl pn scenarios hrun]
  have hpresent : ∀ g ∈ (groupByPersona scenarios).take 4,
      ∀ d ∈ (dedupByDescription g.2).map (fun s => s.description),
      d ∈ (uploadFold o st pl pn scenarios).store.tests.map (fun t => t.name) :=
    fun g hg d hd => foldl_pp_names_present o st.nextId _ (uploadInit st pl pn)
      g hg (hsuite g.1) (htests g.1) d hd
  have hnames : (uploadScenariosToDatabase o
      (uploadScenariosToDatabase o st pl pn scenarios).store pl pn
      scenarios).store.tests.map (fun t => t.name)
      = (uploadScenariosToDatabase o st pl pn scenarios).store.tests.map
          (fun t => t.name) := by
    rw [hstore2]
    have heq := foldl_pp_names_eq o
      (uploadScenariosToDatabase o st pl pn scenarios).store.nextId
      ((groupByPersona scenarios).take 4)
      (uploadInit (uploadScenariosToDatabase o st pl pn scenarios).store pl pn)
      (by
        intro g hg d hd
        have := hpresent g hg d hd
        rw [← hstore1] at this
        exact this)
    exact heq
  have hlens : (uploadScenariosToDatabase o
      (uploadScenariosToDatabase o st pl pn scenarios).store pl pn
      scenarios).store.tests.length
      = (uploadScenariosToDatabase o st pl pn scenarios).store.tests.length := by
    have h := congrArg List.length hnames
    rwa [List.length_map, List.length_map] at h
  refine ⟨hnames, hlens, ?_, ?_⟩
  · intro hnd
    rw [hnames, hstore1]
    exact foldl_pp_names_nodup o st.nextId _ (uploadInit st pl pn) hnd
  · rw [hstore2]
    have hfold : (uploadFold o (uploadScenariosToDatabase o st pl pn scenarios).store
        pl pn scenarios).store.results
        = (uploadInit (uploadScenariosToDatabase o st pl pn scenarios).store
            pl pn).store.results :=
      foldl_pp_results o _ _ _
    rw [hfold]
    have hinit : (uploadInit (uploadScenariosToDatabase o st pl pn scenarios).store
        pl pn).store.results
        = (uploadScenariosToDatabase o st pl pn scenarios).store.results ++
            [{ id := (uploadScenariosToDatabase o st pl pn scenarios).store.nextId
               pr_link := pl, pr_name := pn
               run_status := "RUNNING", overall_result := none }] := rfl
    rw [hinit, List.length_append]
    rfl

/-- C4 (witness): the rerun on the mixed example keeps the tests-table
length unchanged. -/
theorem claimC4_witness :
    okOracle.resultInsertFails = false ∧
    (uploadScenariosToDatabase okOracle
        (uploadScenariosToDatabase okOracle emptyStore "L" "N" mixedScenarios).store
        "L" "N" mixedScenarios).store.tests.length
      = (uploadScenariosToDatabase okOracle emptyStore "L" "N"
          mixedScenarios).store.tests.length :=
  ⟨rfl, (claimC4_amended okOracle emptyStore "L" "N" mixedScenarios rfl
    (fun _ => rfl) (fun _ => rfl)).2.1⟩

/-- C8: deduplication never crosses persona groups: two scenarios with
the same description but different retained personas yield, in one
error-free persist, an upsert batch per persona each containing a
record named by that shared description and addressed to that
persona, each addressed to the distinct suite row of its own persona. -/
theorem claimC8 (o : StoreOracle) (st : Store) (pl pn : String)
    (scenarios : List Scenario) (s1 s2 : Scenario)
    (hrun : o.resultInsertFails = false)
    (hok : ∀ q, o.suiteInsertFails q = false)
    (hwf : SuitesWf st)
    (hs1 : s1 ∈ scenarios) (hs2 : s2 ∈ scenarios)
    (hdesc : s1.description = s2.description)
    (hper : personaOf s1 ≠ personaOf s2)
    (hin1 : personaOf s1 ∈ ((groupByPersona scenarios).map Prod.fst).take 4)
    (hin2 : personaOf s2 ∈ ((groupByPersona scenarios).map Prod.fst).take 4) :
    ∃ b1 b2 su1 su2,
      (personaOf s1, b1) ∈ (uploadScenariosToDatabase o st pl pn scenarios).upsertCalls ∧
      (personaOf s2, b2) ∈ (uploadScenariosToDatabase o st pl pn scenarios).upsertCalls ∧
      su1 ∈ (uploadScenariosToDatabase o st pl pn scenarios).store.suites ∧
      su2 ∈ (uploadScenariosToDatabase o st pl pn scenarios).store.suites ∧
      su1.name = personaOf s1 ++ " Agent Suite" ∧
      su2.name = personaOf s2 ++ " Agent Suite" ∧
      su1.id ≠ su2.id ∧
      (∃ r1 ∈ b1, r1.name = s1.description ∧ r1.suite_id = su1.id) ∧
      (∃ r2 ∈ b2, r2.name = s2.description ∧ r2.suite_id = su2.id) := by
  have hcalls : (uploadScenariosToDatabase o st pl pn scenarios).upsertCalls
      = (uploadFold o st pl pn scenarios).upsertCalls := by
    rw [upload_ok o st pl pn scenarios hrun]
  have hsuitesEq : (uploadScenariosToDatabase o st pl pn scenarios).store.suites
      = (uploadFold o st pl pn scenarios).store.suites := by
    rw [upload_ok o st pl pn scenarios hrun]
  have hinv := foldl_pp_inv o st.nextId ((groupByPersona scenarios).take 4)
    (uploadInit st pl pn)
    (by
      constructor
      · intro su hsu
        have := hwf.1 su hsu
        have hni : (uploadInit st pl pn).store.nextId = st.nextId + 1 := rfl
        rw [hni]
        omega
      · exact hwf.2)
    (by
      intro pb hpb
      simp [uploadInit] at hpb)
  have hbatch : ∀ (s : Scenario), s ∈ scenarios →
      personaOf s ∈ ((groupByPersona scenarios).map Prod.fst).take 4 →
      ∃ b, (personaOf s, b) ∈ (uploadFold o st pl pn scenarios).upsertCalls ∧
        ∃ r ∈ b, r.name = s.description := by
    intro s hs hin
    rw [← List.map_take] at hin
    obtain ⟨g, hg, hgp⟩ := List.mem_map.mp hin
    have hgmem : g ∈ groupByPersona scenarios :=
      List.Sublist.mem hg (List.take_sublist 4 _)
    have hgval := groupByPersona_entries scenarios g hgmem
    obtain ⟨sid, hcall⟩ := foldl_pp_calls_complete o st.nextId _
      (uploadInit st pl pn) g hg (hok g.1)
    have hsg : s ∈ g.2 := by
      rw [hgval]
      exact List.mem_filter.mpr ⟨hs, by simp [hgp]⟩
    have hdmem : s.description ∈ (dedupByDescription g.2).map
        (fun x => x.description) := by
      rw [dedupByDescription_descs, firstDistinct_mem]
      exact List.mem_map.mpr ⟨s, hsg, rfl⟩
    obtain ⟨x, hx, hxd⟩ := List.mem_map.mp hdmem
    refine ⟨(dedupByDescription g.2).map (mkTestRecord sid), ?_, ?_⟩
    · rw [← hgp]
      exact hcall
    · exact ⟨mkTestRecord sid x, List.mem_map.mpr ⟨x, hx, rfl⟩, hxd⟩
  obtain ⟨b1, hb1, r1, hr1, hr1n⟩ := hbatch s1 hs1 hin1
  obtain ⟨b2, hb2, r2, hr2, hr2n⟩ := hbatch s2 hs2 hin2
  obtain ⟨su1, hsu1, hsu1r, hsu1n, hsu1b⟩ := hinv.2 (personaOf s1, b1) hb1
  obtain ⟨su2, hsu2, hsu2r, hsu2n, hsu2b⟩ := hinv.2 (personaOf s2, b2) hb2
  refine ⟨b1, b2, su1, su2, ?_, ?_, ?_, ?_, hsu1n, hsu2n, ?_, ?_, ?_⟩
  · rw [hcalls]; exact hb1
  · rw [hcalls]; exact hb2
  · rw [hsuitesEq]; exact hsu1
  · rw [hsuitesEq]; exact hsu2
  · intro hid
    have hsueq : su1 = su2 :=
      List.inj_on_of_nodup_map hinv.1.2 hsu1 hsu2 hid
    have hname : personaOf s1 ++ " Agent Suite" = personaOf s2 ++ " Agent Suite" := by
      rw [← hsu1n, ← hsu2n, hsueq]
    exact hper (string_append_right_cancel _ _ _ hname)
  · exact ⟨r1, hr1, hr1n, hsu1b r1 hr1⟩
  · exact ⟨r2, hr2, hr2n, hsu2b r2 hr2⟩

/-- C8 (witness): the spec example with desc3 under both persona B and
persona C on the mixed list. -/
theorem claimC8_witness :
    scB3.description = scC3.description ∧
    personaOf scB3 ≠ personaOf scC3 ∧
    ∃ b1 b2 su1 su2,
      (personaOf scB3, b1) ∈ (uploadScenariosToDatabase okOracle emptyStore "L" "N"
        mixedScenarios).upsertCalls ∧
      (personaOf scC3, b2) ∈ (uploadScenariosToDatabase okOracle emptyStore "L" "N"
        mixedScenarios).upsertCalls ∧
      su1 ∈ (uploadScenariosToDatabase okOracle emptyStore "L" "N"
        mixedScenarios).store.suites ∧
      su2 ∈ (uploadScenariosToDatabase okOracle emptyStore "L" "N"
        mixedScenarios).store.suites ∧
      su1.name = personaOf scB3 ++ " Agent Suite" ∧
      su2.name = personaOf scC3 ++ " Agent Suite" ∧
      su1.id ≠ su2.id ∧
      (∃ r1 ∈ b1, r1.name = scB3.description ∧ r1.suite_id = su1.id) ∧
      (∃ r2 ∈ b2, r2.name = scC3.description ∧ r2.suite_id = su2.id) :=
  ⟨rfl, by decide,
    claimC8 okOracle emptyStore "L" "N" mixedScenarios scB3 scC3 rfl
      (fun _ => rfl) ⟨by simp [emptyStore], by simp [emptyStore]⟩
      (by decide) (by decide) rfl (by decide) (by decide) (by decide)⟩

end QAI
